import Mathlib

/-!
Shallow embedding of the graph-canonicalization core of `osmnx/utils_graph.py`:
geometry equivalence (`_is_same_geometry`), the duplicate-edge test
(`_is_duplicate_edge`), edge re-keying (`_update_edge_keys`), undirected
conversion (`get_undirected`), directed simplification (`get_digraph`) and the
street-degree counter (`count_streets_per_node`), together with theorems about
them.  Node identifiers are natural numbers, coordinates and osmids are
integers (the source compares them exactly), and fallible paths (the
`ValueError` raised by `graph_to_gdfs` on an edgeless graph, the `KeyError` on
a missing endpoint node) are modelled with `Except String`.
-/

namespace Osmnx

/-- A polyline geometry: the ordered point list of a LineString, with exact
integer coordinates (the source compares coordinates exactly, no tolerance). -/
abbrev Geom := List (Int × Int)

/-- Mirrors `_is_same_geometry` (utils_graph.py lines 511-536).  In shapely,
`ls.xy` is the pair of coordinate arrays (all x values, all y values), so
`geom1 = [tuple(coords) for coords in ls1.xy]` is the two-element list
`[xs, ys]`, and the reversed variant reverses each coordinate array. -/
def is_same_geometry (ls1 ls2 : Geom) : Bool :=
  let geom1 := [ls1.map Prod.fst, ls1.map Prod.snd]
  let geom2 := [ls2.map Prod.fst, ls2.map Prod.snd]
  let geom1r := [(ls1.map Prod.fst).reverse, (ls1.map Prod.snd).reverse]
  geom1 == geom2 || geom1r == geom2

theorem map_fst_snd_eq_iff (l1 l2 : Geom) :
    (l1.map Prod.fst = l2.map Prod.fst ∧ l1.map Prod.snd = l2.map Prod.snd) ↔ l1 = l2 := by
  induction l1 generalizing l2 with
  | nil => cases l2 <;> simp
  | cons p l1 ih =>
    cases l2 with
    | nil => simp
    | cons q l2 =>
      simp only [List.map_cons, List.cons.injEq]
      rw [← ih l2]
      constructor
      · rintro ⟨⟨h1, h2⟩, h3, h4⟩
        exact ⟨Prod.ext_iff.mpr ⟨h1, h3⟩, h2, h4⟩
      · rintro ⟨h1, h2, h3⟩
        cases p; cases q
        cases h1
        exact ⟨⟨rfl, h2⟩, rfl, h3⟩

/-- The coordinate-array comparison of `_is_same_geometry` coincides with
comparing the point sequences directly, in original or fully reversed order. -/
theorem is_same_geometry_iff (g1 g2 : Geom) :
    is_same_geometry g1 g2 = true ↔ (g1 = g2 ∨ g1.reverse = g2) := by
  simp only [is_same_geometry, Bool.or_eq_true, beq_iff_eq, List.cons.injEq, and_true]
  constructor
  · rintro (⟨h1, h2⟩ | ⟨h1, h2⟩)
    · exact Or.inl ((map_fst_snd_eq_iff g1 g2).mp ⟨h1, h2⟩)
    · refine Or.inr ((map_fst_snd_eq_iff g1.reverse g2).mp ⟨?_, ?_⟩) <;>
        rw [List.map_reverse] <;> assumption
  · rintro (h | h)
    · exact Or.inl ⟨((map_fst_snd_eq_iff g1 g2).mpr h).1, ((map_fst_snd_eq_iff g1 g2).mpr h).2⟩
    · refine Or.inr ⟨?_, ?_⟩ <;> rw [← List.map_reverse]
      · exact ((map_fst_snd_eq_iff g1.reverse g2).mpr h).1
      · exact ((map_fst_snd_eq_iff g1.reverse g2).mpr h).2

theorem is_same_geometry_refl (g : Geom) : is_same_geometry g g = true :=
  (is_same_geometry_iff g g).mpr (Or.inl rfl)

theorem is_same_geometry_symm (g1 g2 : Geom) :
    is_same_geometry g1 g2 = is_same_geometry g2 g1 := by
  by_cases h : is_same_geometry g1 g2 = true
  · rw [h]
    symm
    rw [is_same_geometry_iff] at h ⊢
    rcases h with h | h
    · exact Or.inl h.symm
    · right
      rw [← h, List.reverse_reverse]
  · have h2 : ¬ is_same_geometry g2 g1 = true := by
      intro hc
      apply h
      rw [is_same_geometry_iff] at hc ⊢
      rcases hc with hc | hc
      · exact Or.inl hc.symm
      · right
        rw [← hc, List.reverse_reverse]
    rw [Bool.not_eq_true] at h h2
    rw [h, h2]

theorem is_same_geometry_trans {g1 g2 g3 : Geom} (h12 : is_same_geometry g1 g2 = true)
    (h23 : is_same_geometry g2 g3 = true) : is_same_geometry g1 g3 = true := by
  rw [is_same_geometry_iff] at h12 h23 ⊢
  rcases h12 with h12 | h12 <;> rcases h23 with h23 | h23
  · exact Or.inl (h12.trans h23)
  · right
    rw [h12]
    exact h23
  · right
    rw [h12]
    exact h23
  · left
    rw [← h23, ← h12, List.reverse_reverse]

/-- The `osmid` edge attribute: a scalar identifier, or a list of identifiers
when edges were merged by prior simplification. -/
inductive Osmid where
  | scalar : Int → Osmid
  | many : List Int → Osmid
deriving DecidableEq

/-- Normalized osmid comparison from `_is_duplicate_edge` (lines 489-493):
a list-valued osmid is converted to a Python set before comparison, and two
sets are equal iff they contain the same elements; a set never equals a
scalar, and a scalar never equals a set. -/
def osmidNormEq : Osmid → Osmid → Bool
  | .scalar a, .scalar b => a == b
  | .many a, .many b => a.all (fun x => decide (x ∈ b)) && b.all (fun x => decide (x ∈ a))
  | _, _ => false

/-- Spec-side reading of the osmid comparison: scalars compare by equality,
lists compare as order-invariant sets, mixed kinds never compare equal. -/
def OsmidSetEq : Osmid → Osmid → Prop
  | .scalar a, .scalar b => a = b
  | .many a, .many b => a.toFinset = b.toFinset
  | _, _ => False

instance : DecidablePred fun p : Osmid × Osmid => OsmidSetEq p.1 p.2 := by
  rintro ⟨o1, o2⟩
  cases o1 <;> cases o2 <;> simp only [OsmidSetEq] <;> infer_instance

theorem osmidNormEq_iff (o1 o2 : Osmid) : osmidNormEq o1 o2 = true ↔ OsmidSetEq o1 o2 := by
  cases o1 with
  | scalar a =>
    cases o2 with
    | scalar b => simp [osmidNormEq, OsmidSetEq]
    | many b => simp [osmidNormEq, OsmidSetEq]
  | many a =>
    cases o2 with
    | scalar b => simp [osmidNormEq, OsmidSetEq]
    | many b =>
      simp only [osmidNormEq, OsmidSetEq, Bool.and_eq_true, List.all_eq_true,
        decide_eq_true_eq]
      constructor
      · rintro ⟨h1, h2⟩
        ext x
        simp only [List.mem_toFinset]
        exact ⟨fun hx => h1 x hx, fun hx => h2 x hx⟩
      · intro h
        have h' : ∀ x : Int, x ∈ a ↔ x ∈ b := by
          intro x
          rw [← List.mem_toFinset, ← List.mem_toFinset, h]
        exact ⟨fun x hx => (h' x).mp hx, fun x hx => (h' x).mpr hx⟩

theorem osmidNormEq_refl (o : Osmid) : osmidNormEq o o = true := by
  rw [osmidNormEq_iff]
  cases o <;> simp [OsmidSetEq]

theorem osmidNormEq_symm (o1 o2 : Osmid) (h : osmidNormEq o1 o2 = true) :
    osmidNormEq o2 o1 = true := by
  rw [osmidNormEq_iff] at h ⊢
  cases o1 <;> cases o2 <;> simp only [OsmidSetEq] at h ⊢ <;> exact h.symm

theorem osmidNormEq_trans {o1 o2 o3 : Osmid} (h12 : osmidNormEq o1 o2 = true)
    (h23 : osmidNormEq o2 o3 = true) : osmidNormEq o1 o3 = true := by
  rw [osmidNormEq_iff] at h12 h23 ⊢
  cases o1 <;> cases o2 <;> cases o3 <;>
    simp only [OsmidSetEq] at h12 h23 ⊢ <;> try exact h12.trans h23

/-- The attribute bundle of an edge (§3 of the data contract): `osmid` is
always present, `geometry` is optional, `weight` is the numeric attribute
minimized by `get_digraph`, `srcMark`/`dstMark` model the `from`/`to`
direction markers stamped by `get_undirected`. -/
structure EdgeData where
  osmid : Osmid
  geometry : Option Geom := none
  weight : Int := 0
  srcMark : Option Nat := none
  dstMark : Option Nat := none
deriving DecidableEq

/-- Mirrors `_is_duplicate_edge` (utils_graph.py lines 470-508): normalized
osmids must match, then both-geometries must compare equivalent, or neither
bundle may carry a geometry; one-sided geometry is never a duplicate. -/
def is_duplicate_edge (d1 d2 : EdgeData) : Bool :=
  if osmidNormEq d1.osmid d2.osmid then
    match d1.geometry, d2.geometry with
    | some g1, some g2 => is_same_geometry g1 g2
    | none, none => true
    | _, _ => false
  else false

theorem is_duplicate_edge_iff (d1 d2 : EdgeData) :
    is_duplicate_edge d1 d2 = true ↔
      (OsmidSetEq d1.osmid d2.osmid ∧
        ((∃ g1 g2, d1.geometry = some g1 ∧ d2.geometry = some g2 ∧
            (g1 = g2 ∨ g1.reverse = g2)) ∨
         (d1.geometry = none ∧ d2.geometry = none))) := by
  unfold is_duplicate_edge
  by_cases ho : osmidNormEq d1.osmid d2.osmid = true
  · rw [if_pos ho]
    rw [osmidNormEq_iff] at ho
    cases hg1 : d1.geometry with
    | none =>
      cases hg2 : d2.geometry with
      | none => simp [ho]
      | some g2 => simp [ho]
    | some g1 =>
      cases hg2 : d2.geometry with
      | none => simp [ho]
      | some g2 =>
        rw [is_same_geometry_iff]
        simp [ho]
  · rw [if_neg ho]
    rw [osmidNormEq_iff] at ho
    simp [ho]

theorem is_duplicate_edge_refl (d : EdgeData) : is_duplicate_edge d d = true := by
  unfold is_duplicate_edge
  rw [if_pos (osmidNormEq_refl d.osmid)]
  cases d.geometry with
  | none => rfl
  | some g => exact is_same_geometry_refl g

theorem is_duplicate_edge_symm (d1 d2 : EdgeData) :
    is_duplicate_edge d1 d2 = is_duplicate_edge d2 d1 := by
  by_cases h : is_duplicate_edge d1 d2 = true
  · rw [h]
    symm
    rw [is_duplicate_edge_iff] at h ⊢
    obtain ⟨ho, hg⟩ := h
    refine ⟨?_, ?_⟩
    · rw [← osmidNormEq_iff] at ho ⊢
      exact osmidNormEq_symm _ _ ho
    · rcases hg with ⟨g1, g2, h1, h2, hg⟩ | ⟨h1, h2⟩
      · refine Or.inl ⟨g2, g1, h2, h1, ?_⟩
        rw [← is_same_geometry_iff] at hg ⊢
        rw [is_same_geometry_symm]
        exact hg
      · exact Or.inr ⟨h2, h1⟩
  · have h2 : ¬ is_duplicate_edge d2 d1 = true := by
      intro hc
      apply h
      rw [is_duplicate_edge_iff] at hc ⊢
      obtain ⟨ho, hg⟩ := hc
      refine ⟨?_, ?_⟩
      · rw [← osmidNormEq_iff] at ho ⊢
        exact osmidNormEq_symm _ _ ho
      · rcases hg with ⟨g1, g2, h1, h2, hg⟩ | ⟨h1, h2⟩
        · refine Or.inl ⟨g2, g1, h2, h1, ?_⟩
          rw [← is_same_geometry_iff] at hg ⊢
          rw [is_same_geometry_symm]
          exact hg
        · exact Or.inr ⟨h2, h1⟩
    rw [Bool.not_eq_true] at h h2
    rw [h, h2]

theorem is_duplicate_edge_trans {d1 d2 d3 : EdgeData}
    (h12 : is_duplicate_edge d1 d2 = true) (h23 : is_duplicate_edge d2 d3 = true) :
    is_duplicate_edge d1 d3 = true := by
  rw [is_duplicate_edge_iff] at h12 h23 ⊢
  obtain ⟨ho12, hg12⟩ := h12
  obtain ⟨ho23, hg23⟩ := h23
  refine ⟨?_, ?_⟩
  · rw [← osmidNormEq_iff] at ho12 ho23 ⊢
    exact osmidNormEq_trans ho12 ho23
  · rcases hg12 with ⟨g1, g2, e1, e2, hg12⟩ | ⟨e1, e2⟩
    · rcases hg23 with ⟨g2', g3, e2', e3, hg23⟩ | ⟨e2', _⟩
      · rw [e2] at e2'
        cases e2'
        refine Or.inl ⟨g1, g3, e1, e3, ?_⟩
        rw [← is_same_geometry_iff] at hg12 hg23 ⊢
        exact is_same_geometry_trans hg12 hg23
      · rw [e2] at e2'
        cases e2'
    · rcases hg23 with ⟨g2', g3, e2', e3, hg23⟩ | ⟨e2', e3⟩
      · rw [e2] at e2'
        cases e2'
      · exact Or.inr ⟨e1, e3⟩

/-- C7: `_is_same_geometry` returns true iff the two point sequences are
identical in original order or in fully reversed order (exact comparison, no
tolerance); it is symmetric, and reflexive for every non-empty polyline. -/
theorem C7_is_same_geometry_characterization (g1 g2 : Geom) :
    (is_same_geometry g1 g2 = true ↔ (g1 = g2 ∨ g1.reverse = g2)) ∧
    is_same_geometry g1 g2 = is_same_geometry g2 g1 ∧
    (g1 ≠ [] → is_same_geometry g1 g1 = true) :=
  ⟨is_same_geometry_iff g1 g2, is_same_geometry_symm g1 g2,
    fun _ => is_same_geometry_refl g1⟩

/-- Witness for C7 at a concrete non-empty polyline. -/
theorem C7_is_same_geometry_characterization_witness :
    ([((0 : Int), (0 : Int)), (1, 1)] ≠ ([] : Geom)) ∧
      is_same_geometry [((0 : Int), (0 : Int)), (1, 1)] [((0 : Int), (0 : Int)), (1, 1)] = true :=
  ⟨by decide,
    (C7_is_same_geometry_characterization [((0 : Int), (0 : Int)), (1, 1)]
      [((0 : Int), (0 : Int)), (1, 1)]).2.2 (by decide)⟩

/-- C6: `_is_duplicate_edge` returns true iff the normalized osmids agree
(list osmids as order-invariant sets) and either both bundles carry
equivalent geometries or neither carries one; in particular, when exactly one
bundle carries a geometry the result is false even if the osmids match. -/
theorem C6_is_duplicate_edge_characterization (d1 d2 : EdgeData) :
    is_duplicate_edge d1 d2 = true ↔
      (OsmidSetEq d1.osmid d2.osmid ∧
        ((∃ g1 g2, d1.geometry = some g1 ∧ d2.geometry = some g2 ∧
            (g1 = g2 ∨ g1.reverse = g2)) ∨
         (d1.geometry = none ∧ d2.geometry = none))) :=
  is_duplicate_edge_iff d1 d2

/-- A directed edge of a `networkx.MultiDiGraph`: ordered endpoints `u`, `v`,
an integer key `k` disambiguating parallel edges, and the attribute bundle. -/
structure Edge where
  u : Nat
  v : Nat
  k : Nat
  d : EdgeData
deriving DecidableEq

/-- A directed multigraph: nodes are `(id, x, y)` in insertion order, edges
are listed in iteration order.  (The networkx edge iteration is grouped by
source node's adjacency; concrete graphs in this file list their edges in
that order already.) -/
structure MultiDiGraph where
  nodes : List (Nat × Int × Int)
  edges : List Edge
deriving DecidableEq

/-- Coordinates of a node, as `G.nodes[n]["x"], G.nodes[n]["y"]` (absent node
gives a `KeyError` in the source, `none` here). -/
def nodeXY (G : MultiDiGraph) (n : Nat) : Option (Int × Int) :=
  (G.nodes.find? (fun p => p.1 == n)).map Prod.snd

/-- Well-formedness invariants every networkx multidigraph satisfies: node
identifiers are unique, every edge endpoint references a present node, and
`(u, v, key)` triples are unique. -/
def MultiDiGraph.WF (G : MultiDiGraph) : Prop :=
  (G.nodes.map Prod.fst).Nodup ∧
  (∀ e ∈ G.edges, (nodeXY G e.u).isSome ∧ (nodeXY G e.v).isSome) ∧
  (G.edges.map (fun e => (e.u, e.v, e.k))).Nodup

instance (G : MultiDiGraph) : Decidable G.WF := by
  unfold MultiDiGraph.WF
  infer_instance

/-- The simple directed graph produced by `get_digraph`: at most one edge per
ordered node pair. -/
structure DiGraph where
  nodes : List (Nat × Int × Int)
  edges : List (Nat × Nat × EdgeData)
deriving DecidableEq

/-- Whether a directed edge joins the ordered pair `(u, v)`. -/
def edgeBetweenPred (u v : Nat) (e : Edge) : Bool :=
  e.u == u && e.v == v

/-- The keyed edges between an ordered node pair, in iteration order: the
order of `G.get_edge_data(u, v).items()`. -/
def edgesBetween (es : List Edge) (u v : Nat) : List Edge :=
  es.filter (edgeBetweenPred u v)

/-- `max(G.get_edge_data(u, v).items(), key=lambda x: x[1][weight])`: Python's
`max` returns the first maximal item in iteration order. -/
def maxWeightEdge : List Edge → Option Edge
  | [] => none
  | e :: es => some (es.foldl (fun acc f => if f.d.weight > acc.d.weight then f else acc) e)

/-- Whether a flattened digraph entry joins the ordered pair `(u, v)`. -/
def pairMatch (u v : Nat) (t : Nat × Nat × EdgeData) : Bool :=
  t.1 == u && t.2.1 == v

/-- One step of the `nx.DiGraph(G)` conversion: a MultiGraph input is
flattened by `add_edge(u, v, data)` per keyed edge, so for each ordered pair
the data of the last keyed edge in iteration order wins. -/
def digraphAdd (acc : List (Nat × Nat × EdgeData)) (e : Edge) : List (Nat × Nat × EdgeData) :=
  if acc.any (pairMatch e.u e.v) then
    acc.map (fun t => if pairMatch e.u e.v t then (e.u, e.v, e.d) else t)
  else acc ++ [(e.u, e.v, e.d)]

/-- The ordered pairs `set(parallels)` of `get_digraph` (lines 386-389): the
pairs carrying an edge with key `> 0`, deduplicated.  The loop in the source
only appends to `to_remove` and the graph is modified once, afterwards, so
the scan order over the pair set is immaterial and is modelled in
first-occurrence order. -/
def parallelPairs (G : MultiDiGraph) : List (Nat × Nat) :=
  ((G.edges.filter (fun e => e.k > 0)).map (fun e => (e.u, e.v))).dedup

/-- The `to_remove` list of `get_digraph` (lines 389-391): for each parallel
pair, the key of the first-maximal-weight edge between it. -/
def toRemoveList (G : MultiDiGraph) : List (Nat × Nat × Nat) :=
  (parallelPairs G).filterMap (fun p =>
    (maxWeightEdge (edgesBetween G.edges p.1 p.2)).map (fun e => (p.1, p.2, e.k)))

/-- The edges surviving `G.remove_edges_from(to_remove)` (line 393). -/
def remainingEdges (G : MultiDiGraph) : List Edge :=
  G.edges.filter (fun e => decide ((e.u, e.v, e.k) ∉ toRemoveList G))

/-- Mirrors `get_digraph` (utils_graph.py lines 363-396): collect the ordered
pairs that carry an edge with key `> 0`, remove for each such pair the single
first-maximal-weight parallel edge, then cast to a simple digraph (last data
per ordered pair wins). -/
def get_digraph (G : MultiDiGraph) : DiGraph :=
  { nodes := G.nodes, edges := (remainingEdges G).foldl digraphAdd [] }

/-- Attribute lookup in the resulting digraph. -/
def DiGraph.lookup (D : DiGraph) (u v : Nat) : Option EdgeData :=
  (D.edges.find? (pairMatch u v)).map (fun t => t.2.2)

/-- An edge of a `networkx.MultiGraph`: stored with the canonical reported
orientation (`a` is the endpoint whose adjacency is scanned first, i.e. the
one earlier in node insertion order). -/
structure MGEdge where
  a : Nat
  b : Nat
  k : Nat
  d : EdgeData
deriving DecidableEq

/-- An undirected multigraph. -/
structure MultiGraph where
  nodes : List (Nat × Int × Int)
  edges : List MGEdge
deriving DecidableEq

/-- Index of a node in the node insertion order (`length` when absent). -/
def nodeIdx (ns : List (Nat × Int × Int)) (n : Nat) : Nat :=
  ns.findIdx (fun p => p.1 == n)

/-- The orientation in which networkx reports an undirected edge between `u`
and `v`: the endpoint earlier in node iteration order comes first. -/
def canonPair (ns : List (Nat × Int × Int)) (u v : Nat) : Nat × Nat :=
  if nodeIdx ns u ≤ nodeIdx ns v then (u, v) else (v, u)

/-- The `(u, v, key)` identity of an undirected edge slot. -/
def edgeSlot (e : MGEdge) : Nat × Nat × Nat := (e.a, e.b, e.k)

/-- `MultiGraph.add_edge(u, v, key=k, **data)`: if the unordered slot already
exists its attribute dict is updated (here: replaced, since every bundle
carries the full fixed attribute set), otherwise a new edge is appended. -/
def MultiGraph.addEdge (H : MultiGraph) (u v k : Nat) (d : EdgeData) : MultiGraph :=
  let p := canonPair H.nodes u v
  if H.edges.any (fun e => e.a == p.1 && e.b == p.2 && e.k == k) then
    { H with edges := H.edges.map (fun e =>
        if e.a == p.1 && e.b == p.2 && e.k == k then { e with d := d } else e) }
  else
    { H with edges := H.edges ++ [⟨p.1, p.2, k, d⟩] }

/-- Inserting every directed edge of `G` into a fresh undirected multigraph,
as both `G.to_undirected(reciprocal=False)` (in `count_streets_per_node`) and
the `H.add_edges_from(G.edges(keys=True, data=True))` step of
`get_undirected` do: a directed edge `(u,v,k)` and its reverse `(v,u,k)`
collide on the same undirected slot, the later insertion's data winning. -/
def buildMG (G : MultiDiGraph) : MultiGraph :=
  G.edges.foldl (fun H e => H.addEdge e.u e.v e.k e.d) { nodes := G.nodes, edges := [] }

/-- Mirrors `count_streets_per_node` (utils_graph.py lines 195-255) for one
requested node: undirect the graph without removing reciprocal duplicates,
keep parallel non-self-loop edges, collapse self-loop slots to one entry per
unordered pair, then tally how often the node occurs among the flattened
endpoint pairs.  (The source's Python sets only feed membership tests and the
order-insensitive tally, so they are modelled as deduplicated lists.) -/
def count_streets_per_node (G : MultiDiGraph) (node : Nat) : Nat :=
  let all_edges : List (Nat × Nat) := (buildMG G).edges.map (fun e => (e.a, e.b))
  let all_unique_edges := all_edges.dedup
  let non_self_loop_edges := all_edges.filter (fun p => p.1 != p.2)
  let self_loop_edges := all_unique_edges.filter (fun p => decide (p ∉ non_self_loop_edges))
  let edges := non_self_loop_edges ++ self_loop_edges
  (edges.flatMap (fun p => [p.1, p.2])).count node

/-- Scenario D input: node 7 with a single one-way directed self-loop. -/
def selfLoopOneWay : MultiDiGraph :=
  { nodes := [(7, 0, 0)],
    edges := [⟨7, 7, 0, { osmid := .scalar 1 }⟩] }

/-- Scenario D input: node 7 with a bidirectional self-loop, which the
directed-to-undirected expansion represents as keys 0 and 1. -/
def selfLoopTwoWay : MultiDiGraph :=
  { nodes := [(7, 0, 0)],
    edges := [⟨7, 7, 0, { osmid := .scalar 1 }⟩, ⟨7, 7, 1, { osmid := .scalar 1 }⟩] }

/-- Counterexample to C5: `count_streets_per_node` reports 2 (the self-loop
node appears at both endpoints of its single collapsed edge), not the claimed
1, for a one-way self-loop at node 7. -/
theorem C5_counterexample :
    count_streets_per_node selfLoopOneWay 7 = 2 ∧ (2 : Nat) ≠ 1 := by
  constructor
  · rfl
  · decide

/-- C5 amended: for both Scenario D inputs — a one-way self-loop at node 7,
and a bidirectional self-loop present as keys 0 and 1 — the street degree
counter reports count 2 for node 7 (the collapsed single self-loop edge
contributes both of its endpoints to the tally); the deduplication makes the
bidirectional case agree with the one-way case, but both are 2, not 1. -/
theorem C5_self_loop_counts :
    count_streets_per_node selfLoopOneWay 7 = 2 ∧
    count_streets_per_node selfLoopTwoWay 7 = 2 := by
  constructor <;> rfl

/-- The unordered endpoint pair of a directed edge. -/
def upair (e : Edge) : Nat × Nat := (min e.u e.v, max e.u e.v)

/-- The grouping label of `_update_edge_keys` (line 560): the two endpoint
identifiers sorted, together with the key.  The source sorts the stringified
identifiers and joins them with the key; equality of those label strings
coincides with equality of (sorted endpoint pair, key), which is what the
grouping uses. -/
def uvkLabel (e : Edge) : (Nat × Nat) × Nat := (upair e, e.k)

/-- The geometry an edge carries (every edge examined by the grouping has
one, because rows without geometry are dropped by `dropna`). -/
def geomOf (e : Edge) : Geom := e.d.geometry.getD []

/-- Whether some pair of edges in a group has differing geometries, as the
`itertools.combinations` loop of `_update_edge_keys` (lines 571-577) detects;
`is_same_geometry` is reflexive and symmetric, so scanning ordered pairs
including the diagonal detects exactly the same groups. -/
def pairwiseDiffers (grp : List Edge) : Bool :=
  grp.any (fun x => grp.any (fun y => !(is_same_geometry (geomOf x) (geomOf y))))

/-- The rows flagged by `edges["uvk"].duplicated(keep=False)` and
`dropna(subset=["geometry"])` (lines 561-562): edges whose label occurs at
least twice among all rows, and which carry a geometry. -/
def dupeRows (es : List Edge) : List Edge :=
  es.filter (fun e =>
    decide (2 ≤ es.countP (fun f => decide (uvkLabel f = uvkLabel e))) && e.d.geometry.isSome)

/-- The set of flagged representative edges (`set(different_streets)`, lines
564-582): for each label group containing a differing pair of geometries, the
group's first row (`group.index[0]`) is flagged.  Distinct groups have
distinct labels, hence distinct representatives, so Python's `set`
deduplication is modelled by the per-group construction itself. -/
def flaggedReps (es : List Edge) : List Edge :=
  ((dupeRows es).map uvkLabel).dedup.filterMap (fun l =>
    let grp := (dupeRows es).filter (fun e => decide (uvkLabel e = l))
    if pairwiseDiffers grp then grp.head? else none)

/-- Whether `f` runs between the endpoints of `e`, in either direction: the
membership test behind `list(G[u][v]) + list(G[v][u])`. -/
def pairAnyDir (e f : Edge) : Bool :=
  (f.u == e.u && f.v == e.v) || (f.u == e.v && f.v == e.u)

/-- Whether `f` is exactly the keyed edge `(e.u, e.v, e.k)`, the edge
`remove_edge` deletes. -/
def tripleMatch (e f : Edge) : Bool :=
  f.u == e.u && f.v == e.v && f.k == e.k

/-- The keys used between the endpoints of `e` in either direction
(`list(G[u][v]) + list(G[v][u])`). -/
def pairKeys (g : MultiDiGraph) (e : Edge) : List Nat :=
  (g.edges.filter (pairAnyDir e)).map Edge.k

/-- The fresh key `max(list(G[u][v]) + list(G[v][u])) + 1` (the key list is
non-empty whenever the flagged edge itself is still present, and keys are
naturals, so folding `max` from 0 agrees with Python's `max`). -/
def newKeyOf (g : MultiDiGraph) (e : Edge) : Nat :=
  (pairKeys g e).foldl Nat.max 0 + 1

/-- Re-keying one flagged edge (lines 582-585): the fresh key is strictly
greater than every key used between the endpoints in either direction; the
edge is re-added under the new key with the same attributes and the old edge
is removed. -/
def rekeyOne (g : MultiDiGraph) (e : Edge) : MultiDiGraph :=
  let kept := (g.edges ++ [Edge.mk e.u e.v (newKeyOf g e) e.d]).filter
    (fun f => !(tripleMatch e f))
  { g with edges := kept }

/-- Mirrors `_update_edge_keys` (utils_graph.py lines 539-586).  The call to
`graph_to_gdfs` raises `ValueError` when the graph has no edges (lines
59-60), which this models as the error case. -/
def update_edge_keys (G : MultiDiGraph) : Except String MultiDiGraph :=
  if G.edges.isEmpty then
    Except.error "Graph has no edges, cannot convert to a GeoDataFrame."
  else
    Except.ok ((flaggedReps G.edges).foldl rekeyOne G)

/-- The stamping loop of `get_undirected` (lines 419-427): record `from` and
`to`, and synthesize a straight 2-point geometry from the endpoint
coordinates when the edge has none (a missing endpoint coordinate raises a
`KeyError` in the source). -/
def stampEdge (G : MultiDiGraph) (e : Edge) : Except String Edge :=
  let d1 := { e.d with srcMark := some e.u, dstMark := some e.v }
  match d1.geometry with
  | some _ => Except.ok { e with d := d1 }
  | none =>
    match nodeXY G e.u, nodeXY G e.v with
    | some pu, some pv => Except.ok { e with d := { d1 with geometry := some [pu, pv] } }
    | _, _ => Except.error "Edge endpoint node is missing coordinate attributes"

/-- The whole stamping pass over the copied input graph. -/
def stampAll (G : MultiDiGraph) : Except String MultiDiGraph := do
  let es ← G.edges.mapM (stampEdge G)
  pure { G with edges := es }

/-- The inner scan of the deduplication pass (lines 450-461): every other key
between the same endpoints whose data the visiting edge's data duplicates. -/
def dedupScan (es : List MGEdge) (e : MGEdge) : List MGEdge :=
  es.filter (fun f => f.a == e.a && f.b == e.b && f.k != e.k && is_duplicate_edge e.d f.d)

/-- One iteration of the deduplication loop (lines 444-461): an edge already
flagged is skipped; otherwise every duplicate of it between the same
endpoints is flagged for removal. -/
def dedupStep (es : List MGEdge) (flags : List (Nat × Nat × Nat)) (e : MGEdge) :
    List (Nat × Nat × Nat) :=
  if edgeSlot e ∈ flags then flags
  else flags ++ (dedupScan es e).map edgeSlot

/-- The full `duplicate_edges` list accumulated by the deduplication pass. -/
def dedupFlags (es : List MGEdge) : List (Nat × Nat × Nat) :=
  es.foldl (dedupStep es) []

/-- `H.remove_edges_from(duplicate_edges)` (line 463). -/
def removeDuplicates (H : MultiGraph) : MultiGraph :=
  let flags := dedupFlags H.edges
  { H with edges := H.edges.filter (fun e => decide (edgeSlot e ∉ flags)) }

/-- Mirrors `get_undirected` (utils_graph.py lines 399-467): copy, stamp
`from`/`to` and fill geometries, re-key ambiguous parallel edges, insert all
directed edges into an undirected multigraph (reciprocal edges with the same
key collide), then remove flagged duplicates. -/
def get_undirected (G : MultiDiGraph) : Except String MultiGraph := do
  let G1 ← stampAll G
  let G2 ← update_edge_keys G1
  pure (removeDuplicates (buildMG G2))

/-- Node coordinate lookup on a MultiGraph. -/
def nodeXYMG (H : MultiGraph) (n : Nat) : Option (Int × Int) :=
  (H.nodes.find? (fun p => p.1 == n)).map Prod.snd

/-- The unordered endpoint pair of an undirected edge. -/
def upairMG (e : MGEdge) : Nat × Nat := (min e.a e.b, max e.a e.b)

/-- The `_update_edge_keys` grouping label when the function runs on a
MultiGraph (as it does when `get_undirected` is applied to its own output). -/
def uvkLabelMG (e : MGEdge) : (Nat × Nat) × Nat := (upairMG e, e.k)

def geomOfMG (e : MGEdge) : Geom := e.d.geometry.getD []

def pairwiseDiffersMG (grp : List MGEdge) : Bool :=
  grp.any (fun x => grp.any (fun y => !(is_same_geometry (geomOfMG x) (geomOfMG y))))

def dupeRowsMG (es : List MGEdge) : List MGEdge :=
  es.filter (fun e =>
    decide (2 ≤ es.countP (fun f => decide (uvkLabelMG f = uvkLabelMG e))) && e.d.geometry.isSome)

def flaggedRepsMG (es : List MGEdge) : List MGEdge :=
  ((dupeRowsMG es).map uvkLabelMG).dedup.filterMap (fun l =>
    let grp := (dupeRowsMG es).filter (fun e => decide (uvkLabelMG e = l))
    if pairwiseDiffersMG grp then grp.head? else none)

/-- Re-keying one flagged edge when the graph is an undirected MultiGraph:
`G[u][v]` and `G[v][u]` are the same adjacency there, `add_edge` collides on
unordered slots, and `remove_edge(u, v, key)` removes the unordered slot. -/
def rekeyOneMG (g : MultiGraph) (e : MGEdge) : MultiGraph :=
  let ks := (g.edges.filter (fun f =>
    (f.a == e.a && f.b == e.b) || (f.a == e.b && f.b == e.a))).map MGEdge.k
  let newKey := ks.foldl Nat.max 0 + 1
  let g1 := g.addEdge e.a e.b newKey e.d
  let kept := g1.edges.filter (fun f =>
    !(((f.a == e.a && f.b == e.b) || (f.a == e.b && f.b == e.a)) && f.k == e.k))
  { g1 with edges := kept }

/-- `_update_edge_keys` applied to a MultiGraph. -/
def update_edge_keys_mg (H : MultiGraph) : Except String MultiGraph :=
  if H.edges.isEmpty then
    Except.error "Graph has no edges, cannot convert to a GeoDataFrame."
  else
    Except.ok ((flaggedRepsMG H.edges).foldl rekeyOneMG H)

/-- The stamping loop of `get_undirected` when iterating a MultiGraph: each
undirected edge is reported once, in its stored canonical orientation, and
its `from`/`to` markers are set to that orientation. -/
def stampEdgeMG (H : MultiGraph) (e : MGEdge) : Except String MGEdge :=
  let d1 := { e.d with srcMark := some e.a, dstMark := some e.b }
  match d1.geometry with
  | some _ => Except.ok { e with d := d1 }
  | none =>
    match nodeXYMG H e.a, nodeXYMG H e.b with
    | some pu, some pv => Except.ok { e with d := { d1 with geometry := some [pu, pv] } }
    | _, _ => Except.error "Edge endpoint node is missing coordinate attributes"

/-- Re-inserting every edge of a MultiGraph into a fresh MultiGraph
(`H.add_edges_from(G.edges(keys=True, data=True))` with an undirected `G`). -/
def rebuildMG (H : MultiGraph) : MultiGraph :=
  H.edges.foldl (fun acc e => acc.addEdge e.a e.b e.k e.d) { nodes := H.nodes, edges := [] }

/-- `get_undirected` applied to an undirected MultiGraph, as happens when the
function is re-applied to its own output. -/
def get_undirected_mg (H : MultiGraph) : Except String MultiGraph := do
  let es ← H.edges.mapM (stampEdgeMG H)
  let H1 : MultiGraph := { H with edges := es }
  let H2 ← update_edge_keys_mg H1
  pure (removeDuplicates (rebuildMG H2))

/-- Total companion of `stampEdge`: under well-formedness the coordinate
lookups always succeed, and `stampEdge` returns exactly this. -/
def stampFill (G : MultiDiGraph) (e : Edge) : Edge :=
  let g : Geom :=
    match e.d.geometry with
    | some g => g
    | none => [(nodeXY G e.u).getD (0, 0), (nodeXY G e.v).getD (0, 0)]
  { e with d := { e.d with srcMark := some e.u, dstMark := some e.v, geometry := some g } }

/-- Re-stamping of the direction markers that a second `get_undirected` pass
performs on an edge that already carries a geometry. -/
def restampMG (e : MGEdge) : MGEdge :=
  { e with d := { e.d with srcMark := some e.a, dstMark := some e.b } }

/-- Three parallel directed edges between nodes 1 and 2 carrying identical
osmid and identical geometry: three mutual duplicates. -/
def threeDupesData : EdgeData :=
  { osmid := .scalar 55, geometry := some [(0, 0), (1, 0)] }

def threeDupesGraph : MultiDiGraph :=
  { nodes := [(1, 0, 0), (2, 1, 0)],
    edges := [⟨1, 2, 0, threeDupesData⟩, ⟨1, 2, 1, threeDupesData⟩,
              ⟨1, 2, 2, threeDupesData⟩] }

/-- The stamped attribute bundle the three edges carry inside the undirected
multigraph the deduplication pass examines. -/
def threeDupesStamped : EdgeData :=
  { osmid := .scalar 55, geometry := some [(0, 0), (1, 0)],
    srcMark := some 1, dstMark := some 2 }

/-- Counterexample to C1: edges `(1,2,1)` and `(1,2,2)` carry identical
bundles, so the Duplicate Edge Test declares them duplicates of each other,
yet the deduplication pass removes BOTH of them (the first edge `(1,2,0)`
visits and flags both); for this mutual-duplicate pair neither member
survives, contradicting the claim that exactly one of the two is removed. -/
theorem C1_counterexample :
    is_duplicate_edge threeDupesStamped threeDupesStamped = true ∧
    dedupFlags [⟨1, 2, 0, threeDupesStamped⟩, ⟨1, 2, 1, threeDupesStamped⟩,
        ⟨1, 2, 2, threeDupesStamped⟩] = [(1, 2, 1), (1, 2, 2)] ∧
    get_undirected threeDupesGraph =
      Except.ok { nodes := [(1, 0, 0), (2, 1, 0)], edges := [⟨1, 2, 0, threeDupesStamped⟩] } :=
  ⟨rfl, rfl, rfl⟩

/-- Three parallel directed edges between 1 and 2 with pairwise distinct
geometries and weights 1, 2, 3 (keys 0, 1, 2). -/
def threeWeightsGraph : MultiDiGraph :=
  { nodes := [(1, 0, 0), (2, 1, 0)],
    edges := [⟨1, 2, 0, { osmid := .scalar 55, geometry := some [(0, 0), (1, 0)], weight := 1 }⟩,
              ⟨1, 2, 1, { osmid := .scalar 56, geometry := some [(0, 0), (0, 1)], weight := 2 }⟩,
              ⟨1, 2, 2, { osmid := .scalar 57, geometry := some [(0, 0), (1, 1)], weight := 3 }⟩] }

/-- Counterexample to C3: with three parallel edges of weights 1, 2, 3,
`get_digraph` removes only the single maximum-weight edge (weight 3) and the
`nx.DiGraph` cast then keeps the last remaining edge's data (weight 2), not
the global minimum (weight 1). -/
theorem C3_counterexample :
    ((threeWeightsGraph.edges.filter (fun e => e.u == 1 && e.v == 2)).map
        (fun e => e.d.weight)) = [1, 2, 3] ∧
    ((get_digraph threeWeightsGraph).lookup 1 2).map EdgeData.weight = some 2 ∧
    (2 : Int) ≠ 1 :=
  ⟨rfl, rfl, by decide⟩

/-- A graph with one node and no edges. -/
def edgelessGraph : MultiDiGraph := { nodes := [(1, 5, 7)], edges := [] }

/-- Counterexample to C4: on a zero-edge graph `get_undirected` does NOT
succeed — `_update_edge_keys` calls `graph_to_gdfs`, which raises
`ValueError` when the graph has no edges (utils_graph.py lines 59-60). -/
theorem C4_counterexample :
    get_undirected edgelessGraph =
      Except.error "Graph has no edges, cannot convert to a GeoDataFrame." :=
  rfl

/-- C4 amended: on a zero-edge graph, `get_digraph` succeeds and returns a
graph with zero edges and the node set unaffected, but `get_undirected`
raises the `ValueError` of `graph_to_gdfs` instead of succeeding. -/
theorem C4_empty_edge_set (G : MultiDiGraph) (h : G.edges = []) :
    (get_digraph G).edges = [] ∧ (get_digraph G).nodes = G.nodes ∧
    get_undirected G =
      Except.error "Graph has no edges, cannot convert to a GeoDataFrame." := by
  obtain ⟨ns, es⟩ := G
  simp only at h
  subst h
  exact ⟨rfl, rfl, rfl⟩

/-- Witness for C4 at a concrete edgeless graph. -/
theorem C4_empty_edge_set_witness :
    edgelessGraph.edges = [] ∧
    ((get_digraph edgelessGraph).edges = [] ∧
      (get_digraph edgelessGraph).nodes = edgelessGraph.nodes ∧
      get_undirected edgelessGraph =
        Except.error "Graph has no edges, cannot convert to a GeoDataFrame.") :=
  ⟨rfl, C4_empty_edge_set edgelessGraph rfl⟩

/-- A single one-way street digitized from node 2 to node 1, node 1 earlier
in insertion order. -/
def oneWayGraph : MultiDiGraph :=
  { nodes := [(1, 0, 0), (2, 0, 1)],
    edges := [⟨2, 1, 0, { osmid := .scalar 55, geometry := some [(0, 1), (0, 0)] }⟩] }

/-- Attribute bundle of the undirected edge after the first pass: direction
markers record the original direction from 2 to 1. -/
def oneWayOutData : EdgeData :=
  { osmid := .scalar 55, geometry := some [(0, 1), (0, 0)],
    srcMark := some 2, dstMark := some 1 }

/-- Attribute bundle after the second pass: markers re-stamped to the
reported orientation from 1 to 2. -/
def oneWayOutTwiceData : EdgeData :=
  { osmid := .scalar 55, geometry := some [(0, 1), (0, 0)],
    srcMark := some 1, dstMark := some 2 }

/-- The output of `get_undirected` on `oneWayGraph`: the undirected edge is
stored in reported orientation (1, 2) while its direction markers record the
original direction from node 2 to node 1. -/
def oneWayOut : MultiGraph :=
  { nodes := [(1, 0, 0), (2, 0, 1)], edges := [⟨1, 2, 0, oneWayOutData⟩] }

/-- The result of applying `get_undirected` a second time: the same edge, but
the `from`/`to` markers are re-stamped to the reported orientation (1, 2). -/
def oneWayOutTwice : MultiGraph :=
  { nodes := [(1, 0, 0), (2, 0, 1)], edges := [⟨1, 2, 0, oneWayOutTwiceData⟩] }

/-- Counterexample to C9: `get_undirected` is not idempotent as an exact
graph equality — re-applying it to its own output re-stamps the `from`/`to`
direction markers to the undirected reported orientation, producing a graph
whose edge attributes differ from the first output. -/
theorem C9_counterexample :
    get_undirected oneWayGraph = Except.ok oneWayOut ∧
    get_undirected_mg oneWayOut = Except.ok oneWayOutTwice ∧
    oneWayOutTwice ≠ oneWayOut :=
  ⟨rfl, rfl, by decide⟩

/-- The relation the deduplication pass works with: same stored endpoints and
duplicate attribute bundles.  Because `is_duplicate_edge` is an equivalence,
so is this relation on the edges between a fixed endpoint pair. -/
def relB (f e : MGEdge) : Bool :=
  f.a == e.a && f.b == e.b && is_duplicate_edge f.d e.d

/-- The duplicate-class representative of `e`: the first edge in iteration
order related to `e`. -/
def rep (es : List MGEdge) (e : MGEdge) : Option MGEdge :=
  es.find? (fun f => relB f e)

theorem relB_iff (f e : MGEdge) :
    relB f e = true ↔ (f.a = e.a ∧ f.b = e.b ∧ is_duplicate_edge f.d e.d = true) := by
  simp [relB, Bool.and_eq_true, and_assoc]

theorem relB_refl (e : MGEdge) : relB e e = true :=
  (relB_iff e e).mpr ⟨rfl, rfl, is_duplicate_edge_refl e.d⟩

theorem relB_symm {f e : MGEdge} (h : relB f e = true) : relB e f = true := by
  rw [relB_iff] at h ⊢
  obtain ⟨h1, h2, h3⟩ := h
  refine ⟨h1.symm, h2.symm, ?_⟩
  rw [is_duplicate_edge_symm]
  exact h3

theorem relB_trans {f e g : MGEdge} (h1 : relB f e = true) (h2 : relB e g = true) :
    relB f g = true := by
  rw [relB_iff] at h1 h2 ⊢
  exact ⟨h1.1.trans h2.1, h1.2.1.trans h2.2.1, is_duplicate_edge_trans h1.2.2 h2.2.2⟩

theorem relB_congr {e f : MGEdge} (h : relB e f = true) (x : MGEdge) :
    relB x e = relB x f := by
  by_cases hx : relB x e = true
  · rw [hx]
    exact (relB_trans hx h).symm
  · have hx2 : ¬ relB x f = true := fun hc => hx (relB_trans hc (relB_symm h))
    rw [Bool.not_eq_true] at hx hx2
    rw [hx, hx2]

theorem find?_congr {α : Type} (p q : α → Bool) (l : List α) (h : ∀ x ∈ l, p x = q x) :
    l.find? p = l.find? q := by
  induction l with
  | nil => rfl
  | cons a l ih =>
    have ha := h a (List.mem_cons_self a l)
    by_cases hp : p a = true
    · rw [List.find?_cons_of_pos _ hp, List.find?_cons_of_pos _ (ha.symm.trans hp)]
    · rw [List.find?_cons_of_neg _ hp, List.find?_cons_of_neg _ (fun hc => hp (ha.trans hc)),
        ih (fun x hx => h x (List.mem_cons_of_mem a hx))]

theorem rep_congr {es : List MGEdge} {e f : MGEdge} (h : relB e f = true) :
    rep es e = rep es f :=
  find?_congr _ _ es (fun x _ => relB_congr h x)

theorem slot_inj {es : List MGEdge} (hwf : (es.map edgeSlot).Nodup) :
    ∀ f ∈ es, ∀ e ∈ es, edgeSlot f = edgeSlot e → f = e :=
  List.inj_on_of_nodup_map hwf

theorem not_mem_of_split {es pre suf : List MGEdge} {e : MGEdge}
    (hwf : (es.map edgeSlot).Nodup) (hsplit : es = pre ++ e :: suf) : e ∉ pre := by
  intro hmem
  rw [hsplit, List.map_append, List.map_cons, List.nodup_append] at hwf
  exact hwf.2.2 (List.mem_map_of_mem edgeSlot hmem) (List.mem_cons_self _ _)

/-- Invariant of the deduplication loop: after processing the prefix `pre`,
the flag list contains exactly the slots of edges whose duplicate-class
representative lies in `pre` and is not the edge itself. -/
def DedupInv (es pre : List MGEdge) (flags : List (Nat × Nat × Nat)) : Prop :=
  ∀ s, s ∈ flags ↔ ∃ f ∈ es, edgeSlot f = s ∧ ∃ r, rep es f = some r ∧ r ∈ pre ∧ r ≠ f

theorem dedupStep_inv {es pre suf : List MGEdge} {flags : List (Nat × Nat × Nat)} {e : MGEdge}
    (hwf : (es.map edgeSlot).Nodup) (hsplit : es = pre ++ e :: suf)
    (hInv : DedupInv es pre flags) :
    DedupInv es (pre ++ [e]) (dedupStep es flags e) := by
  have he : e ∈ es := by
    rw [hsplit]
    exact List.mem_append_right pre (List.mem_cons_self e suf)
  have henp : e ∉ pre := not_mem_of_split hwf hsplit
  have hassoc : es = (pre ++ [e]) ++ suf := by
    rw [hsplit]
    simp
  have hfind1 : ((pre ++ [e]).find? (fun f => relB f e)).isSome := by
    rw [List.find?_isSome]
    exact ⟨e, by simp, relB_refl e⟩
  obtain ⟨r, hr⟩ := Option.isSome_iff_exists.mp hfind1
  have hrep : rep es e = some r := by
    rw [rep, hassoc, List.find?_append, hr]
    rfl
  have hrmem : r ∈ pre ++ [e] := List.mem_of_find?_eq_some hr
  have hmem_iff : edgeSlot e ∈ flags ↔ (∃ z, rep es e = some z ∧ z ∈ pre ∧ z ≠ e) := by
    rw [hInv (edgeSlot e)]
    constructor
    · rintro ⟨f, hf, hslot, z, hz, hzpre, hzf⟩
      have hfe : f = e := slot_inj hwf f hf e he hslot
      subst hfe
      exact ⟨z, hz, hzpre, hzf⟩
    · rintro ⟨z, hz, hzpre, hze⟩
      exact ⟨e, he, rfl, z, hz, hzpre, hze⟩
  by_cases hflag : edgeSlot e ∈ flags
  · rw [dedupStep, if_pos hflag]
    intro s
    rw [hInv s]
    constructor
    · rintro ⟨f, hf, hslot, z, hz, hzpre, hzf⟩
      exact ⟨f, hf, hslot, z, hz, List.mem_append_left _ hzpre, hzf⟩
    · rintro ⟨f, hf, hslot, z, hz, hzin, hzf⟩
      rcases List.mem_append.mp hzin with hzpre | hze
      · exact ⟨f, hf, hslot, z, hz, hzpre, hzf⟩
      · have hze : z = e := by simpa using hze
        subst hze
        have hq' : es.find? (fun x => relB x f) = some z := hz
        have hrel : relB z f = true := by simpa using List.find?_some hq'
        have hre : rep es z = some z := by
          rw [rep_congr hrel]
          exact hz
        obtain ⟨w, hw, hwpre, hwe⟩ := hmem_iff.mp hflag
        rw [hre] at hw
        cases hw
        exact absurd rfl hwe
  · rw [dedupStep, if_neg hflag]
    have hree : rep es e = some e := by
      rcases List.mem_append.mp hrmem with hrpre | hre
      · by_cases hre' : r = e
        · subst hre'
          exact absurd hrpre henp
        · exact absurd (hmem_iff.mpr ⟨r, hrep, hrpre, hre'⟩) hflag
      · have hre : r = e := by simpa using hre
        subst hre
        exact hrep
    intro s
    rw [List.mem_append, hInv s]
    constructor
    · rintro (⟨f, hf, hslot, z, hz, hzpre, hzf⟩ | hscan)
      · exact ⟨f, hf, hslot, z, hz, List.mem_append_left _ hzpre, hzf⟩
      · obtain ⟨f, hfscan, hslot⟩ := List.mem_map.mp hscan
        obtain ⟨hf, hcond⟩ := List.mem_filter.mp hfscan
        simp only [Bool.and_eq_true, beq_iff_eq, bne_iff_ne, ne_eq] at hcond
        obtain ⟨⟨⟨hfa, hfb⟩, hfk⟩, hfd⟩ := hcond
        have hrelef : relB e f = true :=
          (relB_iff e f).mpr ⟨hfa.symm, hfb.symm, hfd⟩
        have hrepf : rep es f = some e := by
          rw [← rep_congr hrelef]
          exact hree
        have hfe : f ≠ e := by
          intro hc
          subst hc
          exact hfk rfl
        exact ⟨f, hf, hslot, e, hrepf, by simp, fun hc => hfe hc.symm⟩
    · rintro ⟨f, hf, hslot, z, hz, hzin, hzf⟩
      rcases List.mem_append.mp hzin with hzpre | hze
      · exact Or.inl ⟨f, hf, hslot, z, hz, hzpre, hzf⟩
      · have hze : z = e := by simpa using hze
        subst hze
        right
        have hq' : es.find? (fun x => relB x f) = some z := hz
        have hrelef : relB z f = true := by simpa using List.find?_some hq'
        rw [relB_iff] at hrelef
        obtain ⟨h1, h2, h3⟩ := hrelef
        have hkne : f.k ≠ z.k := by
          intro hk
          apply hzf
          have hse : edgeSlot z = edgeSlot f := by
            simp [edgeSlot, h1, h2, hk]
          exact slot_inj hwf z he f hf hse
        refine List.mem_map.mpr ⟨f, ?_, hslot⟩
        refine List.mem_filter.mpr ⟨hf, ?_⟩
        simp only [Bool.and_eq_true, beq_iff_eq, bne_iff_ne, ne_eq]
        exact ⟨⟨⟨h1.symm, h2.symm⟩, hkne⟩, h3⟩

theorem dedupFlags_inv (es : List MGEdge) (hwf : (es.map edgeSlot).Nodup) :
    ∀ (suf pre : List MGEdge) (flags : List (Nat × Nat × Nat)),
      es = pre ++ suf → DedupInv es pre flags →
      DedupInv es es (suf.foldl (dedupStep es) flags) := by
  intro suf
  induction suf with
  | nil =>
    intro pre flags hsplit hInv
    rw [List.append_nil] at hsplit
    subst hsplit
    exact hInv
  | cons e suf ih =>
    intro pre flags hsplit hInv
    rw [List.foldl_cons]
    refine ih (pre ++ [e]) _ ?_ (dedupStep_inv hwf hsplit hInv)
    rw [hsplit]
    simp

theorem dedupFlags_mem_iff {es : List MGEdge} (hwf : (es.map edgeSlot).Nodup)
    {e : MGEdge} (he : e ∈ es) :
    edgeSlot e ∈ dedupFlags es ↔ rep es e ≠ some e := by
  have hInv0 : DedupInv es [] [] := by
    intro s
    constructor
    · rintro ⟨⟩
    · rintro ⟨f, _, _, z, _, hz, _⟩
      exact absurd hz (List.not_mem_nil z)
  have hInv := dedupFlags_inv es hwf es [] [] (by simp) hInv0
  rw [dedupFlags]
  rw [hInv (edgeSlot e)]
  constructor
  · rintro ⟨f, hf, hslot, z, hz, _, hzf⟩
    have hfe : f = e := slot_inj hwf f hf e he hslot
    subst hfe
    intro hc
    rw [hz] at hc
    cases hc
    exact hzf rfl
  · intro hne
    have hsome : (es.find? (fun f => relB f e)).isSome := by
      rw [List.find?_isSome]
      exact ⟨e, he, relB_refl e⟩
    obtain ⟨z, hz⟩ := Option.isSome_iff_exists.mp hsome
    have hz' : rep es e = some z := hz
    refine ⟨e, he, rfl, z, hz', List.mem_of_find?_eq_some hz, ?_⟩
    intro hc
    subst hc
    exact hne hz'

theorem dedup_survivors_not_duplicate {es : List MGEdge} (hwf : (es.map edgeSlot).Nodup)
    {f g : MGEdge} (hf : f ∈ es) (hg : g ∈ es)
    (hfs : edgeSlot f ∉ dedupFlags es) (hgs : edgeSlot g ∉ dedupFlags es)
    (hne : f ≠ g) (ha : f.a = g.a) (hb : f.b = g.b) :
    is_duplicate_edge f.d g.d = false := by
  by_contra hdup
  rw [Bool.not_eq_false] at hdup
  have hrel : relB f g = true := (relB_iff f g).mpr ⟨ha, hb, hdup⟩
  have h1 : rep es f = some f := by
    by_contra hcon
    exact hfs ((dedupFlags_mem_iff hwf hf).mpr hcon)
  have h2 : rep es g = some g := by
    by_contra hcon
    exact hgs ((dedupFlags_mem_iff hwf hg).mpr hcon)
  have h3 : rep es f = rep es g := rep_congr hrel
  rw [h1, h2] at h3
  cases h3
  exact hne rfl

/-- C1 amended: in the deduplication pass, for a pair of mutual duplicates
between the same endpoints the later-visited edge is always flagged and
removed, and the earlier-visited one survives iff no edge visited before it
between those endpoints is a duplicate of it (i.e. it is the first member of
its duplicate class).  When a third, earlier edge duplicates both members of
the pair, both are removed; exactly one edge per duplicate class — the first
in iteration order — survives. -/
theorem C1_dedup_exactly_one_survives (es : List MGEdge)
    (hwf : (es.map edgeSlot).Nodup) (p q r : List MGEdge) (ei ej : MGEdge)
    (hsplit : es = p ++ ei :: (q ++ ej :: r))
    (ha : ei.a = ej.a) (hb : ei.b = ej.b)
    (hdup : is_duplicate_edge ei.d ej.d = true) :
    edgeSlot ej ∈ dedupFlags es ∧
      (edgeSlot ei ∉ dedupFlags es ↔
        ∀ f ∈ p, ¬(f.a = ei.a ∧ f.b = ei.b ∧ is_duplicate_edge f.d ei.d = true)) := by
  have hsplit2 : es = (p ++ ei :: q) ++ ej :: r := by
    rw [hsplit]
    simp
  have hei : ei ∈ es := by
    rw [hsplit]
    exact List.mem_append_right p (List.mem_cons_self ei _)
  have hej : ej ∈ es := by
    rw [hsplit2]
    exact List.mem_append_right _ (List.mem_cons_self ej r)
  have hrelij : relB ei ej = true := (relB_iff ei ej).mpr ⟨ha, hb, hdup⟩
  constructor
  · rw [dedupFlags_mem_iff hwf hej]
    have hfind1 : ((p ++ ei :: q).find? (fun f => relB f ej)).isSome := by
      rw [List.find?_isSome]
      exact ⟨ei, List.mem_append_right p (List.mem_cons_self ei q), hrelij⟩
    obtain ⟨z, hz⟩ := Option.isSome_iff_exists.mp hfind1
    have hrep : rep es ej = some z := by
      rw [rep, hsplit2, List.find?_append, hz]
      rfl
    intro hc
    rw [hrep] at hc
    cases hc
    exact not_mem_of_split hwf hsplit2 (List.mem_of_find?_eq_some hz)
  · rw [dedupFlags_mem_iff hwf hei, not_ne_iff]
    constructor
    · intro hrep f hfp hprops
      have hrelf : relB f ei = true := (relB_iff f ei).mpr hprops
      have hfind1 : (p.find? (fun f => relB f ei)).isSome := by
        rw [List.find?_isSome]
        exact ⟨f, hfp, hrelf⟩
      obtain ⟨z, hz⟩ := Option.isSome_iff_exists.mp hfind1
      have hrep2 : rep es ei = some z := by
        rw [rep, hsplit, List.find?_append, hz]
        rfl
      rw [hrep] at hrep2
      cases hrep2
      exact not_mem_of_split hwf hsplit (List.mem_of_find?_eq_some hz)
    · intro hnone
      have hpnone : p.find? (fun f => relB f ei) = none := by
        rw [List.find?_eq_none]
        intro f hfp hc
        exact hnone f hfp ((relB_iff f ei).mp hc)
      rw [rep, hsplit, List.find?_append, hpnone, Option.none_or]
      exact List.find?_cons_of_pos _ (by simpa using relB_refl ei)

/-- Attribute lookup on a raw flattened edge list. -/
def pairLookup (l : List (Nat × Nat × EdgeData)) (u v : Nat) : Option EdgeData :=
  (l.find? (pairMatch u v)).map (fun t => t.2.2)

theorem pairMatch_self (e : Edge) : pairMatch e.u e.v (e.u, e.v, e.d) = true := by
  simp [pairMatch]

theorem pairLookup_map_update (e : Edge) :
    ∀ (acc : List (Nat × Nat × EdgeData)),
      acc.any (pairMatch e.u e.v) = true →
      pairLookup (acc.map (fun t =>
        if pairMatch e.u e.v t then (e.u, e.v, e.d) else t)) e.u e.v = some e.d := by
  intro acc
  induction acc with
  | nil =>
    intro h
    simp at h
  | cons t acc ih =>
    intro hany
    by_cases ht : pairMatch e.u e.v t = true
    · rw [List.map_cons, if_pos ht]
      unfold pairLookup
      rw [List.find?_cons_of_pos _ (pairMatch_self e)]
      rfl
    · rw [List.map_cons, if_neg ht]
      unfold pairLookup
      rw [List.find?_cons_of_neg _ ht]
      exact ih (by simpa [List.any_cons, ht] using hany)

theorem pairLookup_digraphAdd_self (acc : List (Nat × Nat × EdgeData)) (e : Edge) :
    pairLookup (digraphAdd acc e) e.u e.v = some e.d := by
  unfold digraphAdd
  by_cases hany : acc.any (pairMatch e.u e.v) = true
  · rw [if_pos hany]
    exact pairLookup_map_update e acc hany
  · rw [if_neg hany]
    unfold pairLookup
    rw [List.find?_append]
    have hnone : acc.find? (pairMatch e.u e.v) = none := by
      rw [List.find?_eq_none]
      rw [Bool.not_eq_true] at hany
      exact fun x hx => List.any_eq_false.mp hany x hx
    rw [hnone, Option.none_or, List.find?_cons_of_pos _ (pairMatch_self e)]
    rfl

theorem pairLookup_digraphAdd_other (acc : List (Nat × Nat × EdgeData)) (e : Edge)
    (u v : Nat) (h : ¬(e.u = u ∧ e.v = v)) :
    pairLookup (digraphAdd acc e) u v = pairLookup acc u v := by
  have hnew : pairMatch u v (e.u, e.v, e.d) = false := by
    rw [← Bool.not_eq_true]
    simp only [pairMatch, Bool.and_eq_true, beq_iff_eq]
    intro hc
    exact h ⟨hc.1, hc.2⟩
  unfold digraphAdd
  by_cases hany : acc.any (pairMatch e.u e.v) = true
  · rw [if_pos hany]
    clear hany
    induction acc with
    | nil => rfl
    | cons t acc ih =>
      rw [List.map_cons]
      by_cases htuv : pairMatch u v t = true
      · have hte : ¬ pairMatch e.u e.v t = true := by
          intro hc
          apply h
          simp only [pairMatch, Bool.and_eq_true, beq_iff_eq] at htuv hc
          exact ⟨hc.1.symm.trans htuv.1, hc.2.symm.trans htuv.2⟩
        rw [if_neg hte]
        unfold pairLookup
        rw [List.find?_cons_of_pos _ htuv, List.find?_cons_of_pos _ htuv]
      · by_cases hte : pairMatch e.u e.v t = true
        · rw [if_pos hte]
          unfold pairLookup
          rw [List.find?_cons_of_neg _ (by rw [hnew]; exact Bool.false_ne_true),
            List.find?_cons_of_neg _ htuv]
          exact ih
        · rw [if_neg hte]
          unfold pairLookup
          rw [List.find?_cons_of_neg _ htuv, List.find?_cons_of_neg _ htuv]
          exact ih
  · rw [if_neg hany]
    unfold pairLookup
    rw [List.find?_append]
    have h2 : List.find? (pairMatch u v) [(e.u, e.v, e.d)] = none := by
      rw [List.find?_cons_of_neg _ (by rw [hnew]; exact Bool.false_ne_true)]
      rfl
    rw [h2, Option.or_none]

theorem digraph_fold_lookup (es : List Edge) :
    ∀ (acc : List (Nat × Nat × EdgeData)) (u v : Nat),
      pairLookup (es.foldl digraphAdd acc) u v =
        (match (es.filter (edgeBetweenPred u v)).getLast? with
          | some x => some x.d
          | none => pairLookup acc u v) := by
  induction es with
  | nil =>
    intro acc u v
    rfl
  | cons e es ih =>
    intro acc u v
    rw [List.foldl_cons, ih]
    by_cases hp : edgeBetweenPred u v e = true
    · rw [List.filter_cons_of_pos hp]
      obtain ⟨heu, hev⟩ : e.u = u ∧ e.v = v := by
        simpa [edgeBetweenPred] using hp
      subst heu
      subst hev
      cases hfes : es.filter (edgeBetweenPred e.u e.v) with
      | nil =>
        exact pairLookup_digraphAdd_self acc e
      | cons y ys =>
        rw [List.getLast?_cons_cons]
        have hsome : ((y :: ys).getLast?).isSome := by
          rw [List.getLast?_isSome]
          simp
        obtain ⟨z, hz⟩ := Option.isSome_iff_exists.mp hsome
        rw [hz]
    · rw [List.filter_cons_of_neg hp]
      cases hlast : (es.filter (edgeBetweenPred u v)).getLast? with
      | none =>
        refine pairLookup_digraphAdd_other acc e u v ?_
        intro hc
        apply hp
        simp [edgeBetweenPred, hc.1, hc.2]
      | some x =>
        rfl

/-- C3 amended: when an ordered pair carries exactly two parallel edges,
`get_digraph` removes the maximum-weight one and the survivor is the
minimum-weight one (for three or more parallel edges only the single
first-maximal-weight edge is removed, and the `nx.DiGraph` cast keeps the
last remaining edge's data, which need not be the minimum; see the
counterexample). -/
theorem C3_two_parallel_min_survives (G : MultiDiGraph)
    (hwf : (G.edges.map (fun e => (e.u, e.v, e.k))).Nodup)
    (u v : Nat) (e1 e2 : Edge)
    (hb2 : edgesBetween G.edges u v = [e1, e2]) :
    ((get_digraph G).lookup u v).map EdgeData.weight
      = some (min e1.d.weight e2.d.weight) := by
  have he1B : e1 ∈ edgesBetween G.edges u v := by
    rw [hb2]
    simp
  have he2B : e2 ∈ edgesBetween G.edges u v := by
    rw [hb2]
    simp
  obtain ⟨he1G, hp1⟩ := List.mem_filter.mp he1B
  obtain ⟨he2G, hp2⟩ := List.mem_filter.mp he2B
  simp only [edgeBetweenPred, Bool.and_eq_true, beq_iff_eq] at hp1 hp2
  have hsub : (edgesBetween G.edges u v).Sublist G.edges := List.filter_sublist G.edges
  have hnd : ((edgesBetween G.edges u v).map (fun e => (e.u, e.v, e.k))).Nodup :=
    hwf.sublist (hsub.map _)
  rw [hb2] at hnd
  simp only [List.map_cons, List.map_nil, List.nodup_cons, List.mem_singleton] at hnd
  have hk12 : e1.k ≠ e2.k := by
    intro hc
    exact hnd.1 (by rw [hp1.1, hp1.2, hp2.1, hp2.2, hc])
  have hmax : maxWeightEdge (edgesBetween G.edges u v)
      = some (if e2.d.weight > e1.d.weight then e2 else e1) := by
    rw [hb2]
    rfl
  have hpar : (u, v) ∈ parallelPairs G := by
    have hkey : e1.k > 0 ∨ e2.k > 0 := by omega
    rcases hkey with hk | hk
    · exact List.mem_dedup.mpr (List.mem_map.mpr
        ⟨e1, List.mem_filter.mpr ⟨he1G, by simpa using hk⟩, by rw [hp1.1, hp1.2]⟩)
    · exact List.mem_dedup.mpr (List.mem_map.mpr
        ⟨e2, List.mem_filter.mpr ⟨he2G, by simpa using hk⟩, by rw [hp2.1, hp2.2]⟩)
  have hmemR : ∀ k, ((u, v, k) ∈ toRemoveList G ↔
      k = (if e2.d.weight > e1.d.weight then e2 else e1).k) := by
    intro k
    constructor
    · intro hmem
      obtain ⟨p, _, hpeq⟩ := List.mem_filterMap.mp hmem
      cases hm : maxWeightEdge (edgesBetween G.edges p.1 p.2) with
      | none =>
        rw [hm] at hpeq
        cases hpeq
      | some emx =>
        rw [hm] at hpeq
        simp only [Option.map_some', Option.some.injEq, Prod.mk.injEq] at hpeq
        obtain ⟨h1, h2, h3⟩ := hpeq
        rw [h1, h2] at hm
        rw [hmax] at hm
        cases hm
        exact h3.symm
    · intro hk
      subst hk
      exact List.mem_filterMap.mpr ⟨(u, v), hpar, by rw [hmax]; rfl⟩
  have hremB : edgesBetween (remainingEdges G) u v
      = (edgesBetween G.edges u v).filter
          (fun e => decide ((e.u, e.v, e.k) ∉ toRemoveList G)) := by
    unfold edgesBetween remainingEdges
    rw [List.filter_filter, List.filter_filter]
    exact List.filter_congr (fun e _ => Bool.and_comm _ _)
  have hlook : (get_digraph G).lookup u v
      = pairLookup ((remainingEdges G).foldl digraphAdd []) u v := rfl
  rw [hlook, digraph_fold_lookup]
  have hscrut : (remainingEdges G).filter (edgeBetweenPred u v)
      = edgesBetween (remainingEdges G) u v := rfl
  rw [hscrut, hremB, hb2]
  by_cases hgt : e2.d.weight > e1.d.weight
  · rw [if_pos hgt] at hmemR
    have hkeep1 : decide ((e1.u, e1.v, e1.k) ∉ toRemoveList G) = true := by
      rw [decide_eq_true_eq, hp1.1, hp1.2]
      intro hc
      exact hk12 ((hmemR e1.k).mp hc)
    have hdrop2 : decide ((e2.u, e2.v, e2.k) ∉ toRemoveList G) = false := by
      rw [decide_eq_false_iff_not, not_not, hp2.1, hp2.2]
      exact (hmemR e2.k).mpr rfl
    simp only [List.filter_cons, hkeep1, hdrop2, if_true, if_false, Bool.false_eq_true,
      List.filter_nil]
    have : min e1.d.weight e2.d.weight = e1.d.weight := min_eq_left (le_of_lt hgt)
    rw [this]
    rfl
  · rw [if_neg hgt] at hmemR
    have hdrop1 : decide ((e1.u, e1.v, e1.k) ∉ toRemoveList G) = false := by
      rw [decide_eq_false_iff_not, not_not, hp1.1, hp1.2]
      exact (hmemR e1.k).mpr rfl
    have hkeep2 : decide ((e2.u, e2.v, e2.k) ∉ toRemoveList G) = true := by
      rw [decide_eq_true_eq, hp2.1, hp2.2]
      intro hc
      exact hk12 ((hmemR e2.k).mp hc).symm
    simp only [List.filter_cons, hdrop1, hkeep2, if_true, if_false, Bool.false_eq_true,
      List.filter_nil]
    have : min e1.d.weight e2.d.weight = e2.d.weight := min_eq_right (not_lt.mp hgt)
    rw [this]
    rfl

/-- Two parallel directed edges with weights 3 and 1. -/
def twoWeightsGraph : MultiDiGraph :=
  { nodes := [(1, 0, 0), (2, 1, 0)],
    edges := [⟨1, 2, 0, { osmid := .scalar 55, geometry := some [(0, 0), (1, 0)], weight := 3 }⟩,
              ⟨1, 2, 1, { osmid := .scalar 56, geometry := some [(0, 0), (0, 1)], weight := 1 }⟩] }

/-- Witness for the amended C3 at a concrete pair of parallel edges. -/
theorem C3_two_parallel_min_survives_witness :
    (twoWeightsGraph.edges.map (fun e => (e.u, e.v, e.k))).Nodup ∧
    ((get_digraph twoWeightsGraph).lookup 1 2).map EdgeData.weight = some (min 3 1) :=
  ⟨by decide,
    C3_two_parallel_min_survives twoWeightsGraph (by decide) 1 2 _ _ rfl⟩

/-- A mutual-duplicate pair of undirected edges between nodes 1 and 2. -/
def dupEdgeA : MGEdge := ⟨1, 2, 0, threeDupesStamped⟩

def dupEdgeB : MGEdge := ⟨1, 2, 1, threeDupesStamped⟩

def dupPairList : List MGEdge := [dupEdgeA, dupEdgeB]

/-- Witness for the amended C1 at a concrete two-edge duplicate pair. -/
theorem C1_dedup_exactly_one_survives_witness :
    (dupPairList.map edgeSlot).Nodup ∧
    (edgeSlot dupEdgeB ∈ dedupFlags dupPairList ∧
      (edgeSlot dupEdgeA ∉ dedupFlags dupPairList ↔
        ∀ f ∈ ([] : List MGEdge),
          ¬(f.a = dupEdgeA.a ∧ f.b = dupEdgeA.b ∧
            is_duplicate_edge f.d dupEdgeA.d = true))) :=
  ⟨by decide,
    C1_dedup_exactly_one_survives dupPairList (by decide) [] [] [] dupEdgeA dupEdgeB rfl
      rfl rfl (by decide)⟩

theorem upair_eq_iff (f e : Edge) :
    upair f = upair e ↔ ((f.u = e.u ∧ f.v = e.v) ∨ (f.u = e.v ∧ f.v = e.u)) := by
  unfold upair
  rw [Prod.mk.injEq]
  omega

theorem pairAnyDir_iff (e f : Edge) :
    pairAnyDir e f = true ↔ upair f = upair e := by
  rw [upair_eq_iff]
  simp [pairAnyDir, Bool.or_eq_true, Bool.and_eq_true]

theorem le_foldl_max (l : List Nat) : ∀ a : Nat, a ≤ l.foldl Nat.max a := by
  induction l with
  | nil => exact fun a => Nat.le_refl a
  | cons x l ih =>
    intro a
    rw [List.foldl_cons]
    exact le_trans (Nat.le_max_left a x) (ih (Nat.max a x))

theorem mem_le_foldl_max {x : Nat} {l : List Nat} (h : x ∈ l) :
    ∀ a : Nat, x ≤ l.foldl Nat.max a := by
  induction l with
  | nil => cases h
  | cons y l ih =>
    intro a
    rw [List.foldl_cons]
    rcases List.mem_cons.mp h with rfl | hmem
    · exact le_trans (Nat.le_max_right a x) (le_foldl_max l (Nat.max a x))
    · exact ih hmem (Nat.max a y)

theorem key_lt_newKey {g : MultiDiGraph} {e f : Edge} (hf : f ∈ g.edges)
    (hpair : upair f = upair e) : f.k < newKeyOf g e := by
  have hks : f.k ∈ pairKeys g e :=
    List.mem_map_of_mem Edge.k (List.mem_filter.mpr ⟨hf, (pairAnyDir_iff e f).mpr hpair⟩)
  have := mem_le_foldl_max hks 0
  unfold newKeyOf
  omega

theorem triple_inj {es : List Edge} (hwf : (es.map (fun e => (e.u, e.v, e.k))).Nodup) :
    ∀ f ∈ es, ∀ e ∈ es, (f.u, f.v, f.k) = (e.u, e.v, e.k) → f = e :=
  List.inj_on_of_nodup_map hwf

theorem tripleMatch_iff (e f : Edge) :
    tripleMatch e f = true ↔ (f.u, f.v, f.k) = (e.u, e.v, e.k) := by
  simp [tripleMatch, Bool.and_eq_true, Prod.ext_iff, and_assoc]

theorem mem_rekeyOne {g : MultiDiGraph} {e f : Edge} :
    f ∈ (rekeyOne g e).edges ↔
      ((f ∈ g.edges ∨ f = Edge.mk e.u e.v (newKeyOf g e) e.d) ∧ tripleMatch e f = false) := by
  unfold rekeyOne
  rw [List.mem_filter, List.mem_append, List.mem_singleton, Bool.not_eq_true']

theorem upair_label (e : Edge) : uvkLabel e = (upair e, e.k) := rfl

theorem two_le_countP {α : Type} [DecidableEq α] (p : α → Bool) {l : List α} {a b : α}
    (ha : a ∈ l) (hb : b ∈ l) (hab : a ≠ b) (hpa : p a = true) (hpb : p b = true) :
    2 ≤ l.countP p := by
  rw [List.countP_eq_length_filter]
  have ha' : a ∈ l.filter p := List.mem_filter.mpr ⟨ha, hpa⟩
  have hb' : b ∈ l.filter p := List.mem_filter.mpr ⟨hb, hpb⟩
  have hsub : ({a, b} : Finset α) ⊆ (l.filter p).toFinset := by
    intro x hx
    rw [List.mem_toFinset]
    rcases Finset.mem_insert.mp hx with rfl | hx
    · exact ha'
    · rw [Finset.mem_singleton] at hx
      subst hx
      exact hb'
  calc 2 = ({a, b} : Finset α).card := (Finset.card_pair hab).symm
    _ ≤ (l.filter p).toFinset.card := Finset.card_le_card hsub
    _ ≤ (l.filter p).length := (l.filter p).toFinset_card_le

theorem label_members {es : List Edge}
    (hwf : (es.map (fun e => (e.u, e.v, e.k))).Nodup)
    {e1 e2 x : Edge} (he1 : e1 ∈ es) (he2 : e2 ∈ es) (hx : x ∈ es)
    (hne : e1 ≠ e2) (hl12 : uvkLabel e1 = uvkLabel e2) (hlx : uvkLabel x = uvkLabel e1) :
    x = e1 ∨ x = e2 := by
  rw [upair_label, upair_label, Prod.mk.injEq] at hl12 hlx
  have h21 : e1.u = e2.v ∧ e1.v = e2.u := by
    rcases (upair_eq_iff e1 e2).mp hl12.1 with ⟨h1, h2⟩ | ⟨h1, h2⟩
    · exact absurd (triple_inj hwf e1 he1 e2 he2 (by rw [h1, h2, hl12.2])) hne
    · exact ⟨h1, h2⟩
  rcases (upair_eq_iff x e1).mp hlx.1 with ⟨h1, h2⟩ | ⟨h1, h2⟩
  · exact Or.inl (triple_inj hwf x hx e1 he1 (by rw [h1, h2, hlx.2]))
  · refine Or.inr (triple_inj hwf x hx e2 he2 ?_)
    rw [h1, h2, hlx.2, hl12.2, h21.1, h21.2]

theorem nodup_map_filterMap_label {γ : Type} [DecidableEq γ] (lab : Edge → γ)
    (F : γ → Option Edge) (hF : ∀ l x, F l = some x → lab x = l) :
    ∀ (L : List γ), L.Nodup → ((L.filterMap F).map lab).Nodup := by
  intro L
  induction L with
  | nil =>
    intro _
    simp
  | cons l L ih =>
    intro hnd
    rw [List.nodup_cons] at hnd
    rw [List.filterMap_cons]
    cases hFl : F l with
    | none => exact ih hnd.2
    | some x =>
      rw [List.map_cons, List.nodup_cons]
      refine ⟨?_, ih hnd.2⟩
      intro hmem
      obtain ⟨y, hy, hyx⟩ := List.mem_map.mp hmem
      obtain ⟨l2, hl2, hFl2⟩ := List.mem_filterMap.mp hy
      rw [hF l2 y hFl2, hF l x hFl] at hyx
      subst hyx
      exact hnd.1 hl2

theorem flaggedReps_head_mem {es : List Edge} {l : (Nat × Nat) × Nat} {f : Edge}
    (hfl : (if pairwiseDiffers ((dupeRows es).filter (fun e => decide (uvkLabel e = l)))
        then ((dupeRows es).filter (fun e => decide (uvkLabel e = l))).head? else none) = some f) :
    f ∈ (dupeRows es).filter (fun e => decide (uvkLabel e = l)) := by
  by_cases hd : pairwiseDiffers ((dupeRows es).filter (fun e => decide (uvkLabel e = l))) = true
  · rw [if_pos hd] at hfl
    cases hcase : (dupeRows es).filter (fun e => decide (uvkLabel e = l)) with
    | nil =>
      rw [hcase] at hfl
      cases hfl
    | cons y ys =>
      rw [hcase] at hfl
      cases hfl
      exact List.mem_cons_self _ _
  · rw [if_neg hd] at hfl
    cases hfl

theorem flaggedReps_sub {es : List Edge} : ∀ f ∈ flaggedReps es, f ∈ es := by
  intro f hf
  obtain ⟨l, _, hfl⟩ := List.mem_filterMap.mp hf
  have hmem := flaggedReps_head_mem hfl
  exact (List.mem_filter.mp ((List.mem_filter.mp hmem).1)).1

theorem flaggedReps_labels_nodup (es : List Edge) :
    ((flaggedReps es).map uvkLabel).Nodup := by
  refine nodup_map_filterMap_label uvkLabel _ ?_ _ (List.nodup_dedup _)
  intro l x hFl
  have hmem := flaggedReps_head_mem hFl
  have := (List.mem_filter.mp hmem).2
  simpa using this

theorem conflicts_flagged {es : List Edge}
    (hwf : (es.map (fun e => (e.u, e.v, e.k))).Nodup)
    {e1 e2 : Edge} (he1 : e1 ∈ es) (he2 : e2 ∈ es) (hne : e1 ≠ e2)
    (hlab : uvkLabel e1 = uvkLabel e2)
    (hg1 : e1.d.geometry.isSome = true) (hg2 : e2.d.geometry.isSome = true)
    (hdiff : ¬ is_same_geometry (geomOf e1) (geomOf e2) = true) :
    e1 ∈ flaggedReps es ∨ e2 ∈ flaggedReps es := by
  have hfalse : is_same_geometry (geomOf e1) (geomOf e2) = false := by
    cases hsg : is_same_geometry (geomOf e1) (geomOf e2)
    · rfl
    · exact absurd hsg hdiff
  have hcount1 : 2 ≤ es.countP (fun f => decide (uvkLabel f = uvkLabel e1)) :=
    two_le_countP _ he1 he2 hne (by simp) (by simp [hlab.symm])
  have hcount2 : 2 ≤ es.countP (fun f => decide (uvkLabel f = uvkLabel e2)) :=
    two_le_countP _ he1 he2 hne (by simp [hlab]) (by simp)
  have hd1 : e1 ∈ dupeRows es := List.mem_filter.mpr ⟨he1, by
    rw [Bool.and_eq_true]
    exact ⟨decide_eq_true hcount1, hg1⟩⟩
  have hd2 : e2 ∈ dupeRows es := List.mem_filter.mpr ⟨he2, by
    rw [Bool.and_eq_true]
    exact ⟨decide_eq_true hcount2, hg2⟩⟩
  have hld : uvkLabel e1 ∈ ((dupeRows es).map uvkLabel).dedup :=
    List.mem_dedup.mpr (List.mem_map_of_mem _ hd1)
  have hg1m : e1 ∈ (dupeRows es).filter (fun e => decide (uvkLabel e = uvkLabel e1)) :=
    List.mem_filter.mpr ⟨hd1, by simp⟩
  have hg2m : e2 ∈ (dupeRows es).filter (fun e => decide (uvkLabel e = uvkLabel e1)) :=
    List.mem_filter.mpr ⟨hd2, by simp [hlab.symm]⟩
  have hdiffers : pairwiseDiffers
      ((dupeRows es).filter (fun e => decide (uvkLabel e = uvkLabel e1))) = true := by
    unfold pairwiseDiffers
    rw [List.any_eq_true]
    refine ⟨e1, hg1m, ?_⟩
    rw [List.any_eq_true]
    refine ⟨e2, hg2m, ?_⟩
    rw [hfalse]
    rfl
  obtain ⟨h0, hh0⟩ : ∃ h0,
      ((dupeRows es).filter (fun e => decide (uvkLabel e = uvkLabel e1))).head? = some h0 := by
    cases hcase : (dupeRows es).filter (fun e => decide (uvkLabel e = uvkLabel e1)) with
    | nil =>
      rw [hcase] at hg1m
      cases hg1m
    | cons y ys => exact ⟨y, rfl⟩
  have hmemflag : h0 ∈ flaggedReps es := by
    refine List.mem_filterMap.mpr ⟨uvkLabel e1, hld, ?_⟩
    rw [if_pos hdiffers]
    exact hh0
  have hh0mem : h0 ∈ (dupeRows es).filter (fun e => decide (uvkLabel e = uvkLabel e1)) := by
    cases hcase : (dupeRows es).filter (fun e => decide (uvkLabel e = uvkLabel e1)) with
    | nil =>
      rw [hcase] at hh0
      cases hh0
    | cons y ys =>
      rw [hcase] at hh0
      cases hh0
      exact List.mem_cons_self _ _
  have hh0lab : uvkLabel h0 = uvkLabel e1 := by
    have := (List.mem_filter.mp hh0mem).2
    simpa using this
  have hh0es : h0 ∈ es := (List.mem_filter.mp ((List.mem_filter.mp hh0mem).1)).1
  rcases label_members hwf he1 he2 hh0es hne hlab hh0lab with rfl | rfl
  · exact Or.inl hmemflag
  · exact Or.inr hmemflag

theorem rekeyOne_edges (g : MultiDiGraph) (e : Edge) :
    (rekeyOne g e).edges = (g.edges ++ [Edge.mk e.u e.v (newKeyOf g e) e.d]).filter
      (fun f => !(tripleMatch e f)) := rfl

theorem tripleMatch_refl (e : Edge) : tripleMatch e e = true := by
  simp [tripleMatch]

theorem rekey_fold_preserves (fl : List Edge) :
    ∀ (g : MultiDiGraph),
      (g.edges.map (fun x => (x.u, x.v, x.k))).Nodup →
      (∀ f ∈ fl, f ∈ g.edges) →
      (fl.map uvkLabel).Nodup →
      (∀ x ∈ g.edges, x.d.geometry.isSome = true) →
      (∀ e1 ∈ g.edges, ∀ e2 ∈ g.edges, e1 ≠ e2 → upair e1 = upair e2 → e1.k = e2.k →
        is_same_geometry (geomOf e1) (geomOf e2) = true ∨ e1 ∈ fl ∨ e2 ∈ fl) →
      ((∀ e1 ∈ (fl.foldl rekeyOne g).edges, ∀ e2 ∈ (fl.foldl rekeyOne g).edges,
          e1 ≠ e2 → upair e1 = upair e2 → e1.k = e2.k →
          is_same_geometry (geomOf e1) (geomOf e2) = true) ∧
        (∀ x ∈ (fl.foldl rekeyOne g).edges, x.d.geometry.isSome = true)) := by
  induction fl with
  | nil =>
    intro g _ _ _ hgeom hconf
    refine ⟨?_, hgeom⟩
    intro e1 h1 e2 h2 hne hup hk
    rcases hconf e1 h1 e2 h2 hne hup hk with h | h | h
    · exact h
    · cases h
    · cases h
  | cons e fl ih =>
    intro g hnd hin hlnd hgeom hconf
    rw [List.foldl_cons]
    have he : e ∈ g.edges := hin e (List.mem_cons_self e fl)
    rw [List.map_cons, List.nodup_cons] at hlnd
    have hlabne : ∀ f ∈ fl, uvkLabel f ≠ uvkLabel e := by
      intro f hf hc
      exact hlnd.1 (hc ▸ List.mem_map_of_mem uvkLabel hf)
    have hbig : ((g.edges ++ [Edge.mk e.u e.v (newKeyOf g e) e.d]).map
        (fun x => (x.u, x.v, x.k))).Nodup := by
      rw [List.map_append, List.nodup_append]
      refine ⟨hnd, by simp, ?_⟩
      intro t ht hmem
      simp only [List.map_cons, List.map_nil, List.mem_singleton] at hmem
      subst hmem
      obtain ⟨f, hf, hft⟩ := List.mem_map.mp ht
      rw [Prod.mk.injEq, Prod.mk.injEq] at hft
      have hfp : upair f = upair e := (upair_eq_iff f e).mpr (Or.inl ⟨hft.1, hft.2.1⟩)
      have := key_lt_newKey hf hfp
      omega
    have hndR : ((rekeyOne g e).edges.map (fun x => (x.u, x.v, x.k))).Nodup := by
      rw [rekeyOne_edges]
      exact hbig.sublist ((List.filter_sublist _).map _)
    have hinR : ∀ f ∈ fl, f ∈ (rekeyOne g e).edges := by
      intro f hf
      rw [rekeyOne_edges, List.mem_filter]
      refine ⟨List.mem_append_left _ (hin f (List.mem_cons_of_mem e hf)), ?_⟩
      rw [Bool.not_eq_true']
      rw [← Bool.not_eq_true]
      intro hc
      rw [tripleMatch_iff] at hc
      rw [Prod.mk.injEq, Prod.mk.injEq] at hc
      apply hlabne f hf
      rw [upair_label, upair_label, Prod.mk.injEq]
      exact ⟨(upair_eq_iff f e).mpr (Or.inl ⟨hc.1, hc.2.1⟩), hc.2.2⟩
    have hgeomR : ∀ x ∈ (rekeyOne g e).edges, x.d.geometry.isSome = true := by
      intro x hx
      rw [rekeyOne_edges, List.mem_filter, List.mem_append, List.mem_singleton] at hx
      rcases hx.1 with hxg | rfl
      · exact hgeom x hxg
      · exact hgeom e he
    have hconfR : ∀ e1 ∈ (rekeyOne g e).edges, ∀ e2 ∈ (rekeyOne g e).edges,
        e1 ≠ e2 → upair e1 = upair e2 → e1.k = e2.k →
        is_same_geometry (geomOf e1) (geomOf e2) = true ∨ e1 ∈ fl ∨ e2 ∈ fl := by
      intro e1 h1 e2 h2 hne12 hup hk
      rw [rekeyOne_edges, List.mem_filter, List.mem_append, List.mem_singleton] at h1 h2
      have hnm1 := h1.2
      have hnm2 := h2.2
      rcases h1.1 with h1g | h1new
      · rcases h2.1 with h2g | h2new
        · rcases hconf e1 h1g e2 h2g hne12 hup hk with h | h | h
          · exact Or.inl h
          · rcases List.mem_cons.mp h with rfl | h
            · rw [Bool.not_eq_true', ← Bool.not_eq_true] at hnm1
              exact absurd (tripleMatch_refl e1) hnm1
            · exact Or.inr (Or.inl h)
          · rcases List.mem_cons.mp h with rfl | h
            · rw [Bool.not_eq_true', ← Bool.not_eq_true] at hnm2
              exact absurd (tripleMatch_refl e2) hnm2
            · exact Or.inr (Or.inr h)
        · exfalso
          have hupe : upair e1 = upair e := by
            rw [hup, h2new]
            rfl
          have := key_lt_newKey h1g hupe
          rw [hk, h2new] at this
          simp at this
      · rcases h2.1 with h2g | h2new
        · exfalso
          have hupe : upair e2 = upair e := by
            rw [← hup, h1new]
            rfl
          have := key_lt_newKey h2g hupe
          rw [← hk, h1new] at this
          simp at this
        · exact absurd (h1new.trans h2new.symm) hne12
    exact ih (rekeyOne g e) hndR hinR hlnd.2 hgeomR hconfR

/-- C2: after `_update_edge_keys`, any two distinct edges sharing an
unordered endpoint pair and a key carry geometries that Geometry Equivalence
declares the same; under the networkx multigraph invariant a group sharing
an unordered pair and key has at most two members — the two directed
orientations — so this covers every group the spec speaks of. -/
theorem C2_update_edge_keys_homogeneous (G : MultiDiGraph)
    (hwf : (G.edges.map (fun e => (e.u, e.v, e.k))).Nodup)
    (hgeom : ∀ e ∈ G.edges, e.d.geometry.isSome = true)
    (G' : MultiDiGraph) (hok : update_edge_keys G = Except.ok G') :
    ∀ e1 ∈ G'.edges, ∀ e2 ∈ G'.edges, e1 ≠ e2 → upair e1 = upair e2 → e1.k = e2.k →
      ∃ g1 g2, e1.d.geometry = some g1 ∧ e2.d.geometry = some g2 ∧
        is_same_geometry g1 g2 = true := by
  unfold update_edge_keys at hok
  by_cases hemp : G.edges.isEmpty
  · rw [if_pos hemp] at hok
    cases hok
  · rw [if_neg hemp] at hok
    cases hok
    have hinit_conf : ∀ e1 ∈ G.edges, ∀ e2 ∈ G.edges, e1 ≠ e2 → upair e1 = upair e2 →
        e1.k = e2.k → is_same_geometry (geomOf e1) (geomOf e2) = true ∨
        e1 ∈ flaggedReps G.edges ∨ e2 ∈ flaggedReps G.edges := by
      intro e1 h1 e2 h2 hne hup hk
      by_cases hsg : is_same_geometry (geomOf e1) (geomOf e2) = true
      · exact Or.inl hsg
      · refine Or.inr (conflicts_flagged hwf h1 h2 hne ?_ (hgeom e1 h1) (hgeom e2 h2) hsg)
        rw [upair_label, upair_label, Prod.mk.injEq]
        exact ⟨hup, hk⟩
    obtain ⟨hhom, hgeo⟩ := rekey_fold_preserves (flaggedReps G.edges) G hwf
      flaggedReps_sub (flaggedReps_labels_nodup _) hgeom hinit_conf
    intro e1 h1 e2 h2 hne hup hk
    have hsg := hhom e1 h1 e2 h2 hne hup hk
    obtain ⟨g1, hg1⟩ := Option.isSome_iff_exists.mp (hgeo e1 h1)
    obtain ⟨g2, hg2⟩ := Option.isSome_iff_exists.mp (hgeo e2 h2)
    refine ⟨g1, g2, hg1, hg2, ?_⟩
    have e1g : geomOf e1 = g1 := by
      unfold geomOf
      rw [hg1]
      rfl
    have e2g : geomOf e2 = g2 := by
      unfold geomOf
      rw [hg2]
      rfl
    rw [← e1g, ← e2g]
    exact hsg

/-- A reciprocal pair of directed edges with the same (reversed) geometry:
re-keying leaves it alone, and the two edges legitimately share an unordered
pair and key. -/
def sameGeomPairGraph : MultiDiGraph :=
  { nodes := [(1, 0, 0), (2, 1, 0)],
    edges := [⟨1, 2, 0, { osmid := .scalar 5, geometry := some [(0, 0), (1, 0)] }⟩,
              ⟨2, 1, 0, { osmid := .scalar 5, geometry := some [(1, 0), (0, 0)] }⟩] }

/-- Witness for C2 at a concrete graph. -/
theorem C2_update_edge_keys_homogeneous_witness :
    ((sameGeomPairGraph.edges.map (fun e => (e.u, e.v, e.k))).Nodup ∧
      (∀ e ∈ sameGeomPairGraph.edges, e.d.geometry.isSome = true) ∧
      update_edge_keys sameGeomPairGraph = Except.ok sameGeomPairGraph) ∧
    (∀ e1 ∈ sameGeomPairGraph.edges, ∀ e2 ∈ sameGeomPairGraph.edges,
      e1 ≠ e2 → upair e1 = upair e2 → e1.k = e2.k →
      ∃ g1 g2, e1.d.geometry = some g1 ∧ e2.d.geometry = some g2 ∧
        is_same_geometry g1 g2 = true) :=
  ⟨⟨by decide, by decide, rfl⟩,
    C2_update_edge_keys_homogeneous sameGeomPairGraph (by decide) (by decide)
      sameGeomPairGraph rfl⟩

theorem mapM_ok {β : Type} (f : β → Except String β) (g : β → β) :
    ∀ (l : List β), (∀ e ∈ l, f e = Except.ok (g e)) → l.mapM f = Except.ok (l.map g) := by
  intro l
  induction l with
  | nil =>
    intro _
    rfl
  | cons a l ih =>
    intro h
    rw [List.mapM_cons, h a (List.mem_cons_self a l), ih (fun e he => h e (List.mem_cons_of_mem a he))]
    rfl

theorem stampEdge_eq_fill (G : MultiDiGraph) (e : Edge)
    (hu : (nodeXY G e.u).isSome = true) (hv : (nodeXY G e.v).isSome = true) :
    stampEdge G e = Except.ok (stampFill G e) := by
  obtain ⟨pu, hpu⟩ := Option.isSome_iff_exists.mp hu
  obtain ⟨pv, hpv⟩ := Option.isSome_iff_exists.mp hv
  unfold stampEdge stampFill
  cases hg : e.d.geometry with
  | some g =>
    simp only [hg]
  | none =>
    simp only [hg, hpu, hpv]
    rfl

theorem stampAll_eq (G : MultiDiGraph)
    (hwf : ∀ e ∈ G.edges, (nodeXY G e.u).isSome ∧ (nodeXY G e.v).isSome) :
    stampAll G = Except.ok { G with edges := G.edges.map (stampFill G) } := by
  unfold stampAll
  rw [mapM_ok (stampEdge G) (stampFill G) G.edges
    (fun e he => stampEdge_eq_fill G e (hwf e he).1 (hwf e he).2)]
  rfl

theorem stampFill_geom (G : MultiDiGraph) (e : Edge) :
    ((stampFill G e).d.geometry).isSome = true := by
  unfold stampFill
  rfl

/-- One generic invariant preservation for the `addEdge` fold. -/
theorem addEdge_nodes (H : MultiGraph) (u v k : Nat) (d : EdgeData) :
    (H.addEdge u v k d).nodes = H.nodes := by
  unfold MultiGraph.addEdge
  by_cases h : H.edges.any (fun e => e.a == (canonPair H.nodes u v).1 &&
      e.b == (canonPair H.nodes u v).2 && e.k == k) = true
  · rw [if_pos h]
  · rw [if_neg h]

theorem canonPair_idem (ns : List (Nat × Int × Int)) (u v : Nat) :
    canonPair ns (canonPair ns u v).1 (canonPair ns u v).2 = canonPair ns u v := by
  unfold canonPair
  by_cases h : nodeIdx ns u ≤ nodeIdx ns v
  · rw [if_pos h]
    exact if_pos h
  · rw [if_neg h]
    exact if_pos (Nat.le_of_lt (Nat.lt_of_not_le h))

theorem addEdge_slot_canon (H : MultiGraph) (u v k : Nat) (d : EdgeData)
    (hc : ∀ e ∈ H.edges, canonPair H.nodes e.a e.b = (e.a, e.b)) :
    ∀ e ∈ (H.addEdge u v k d).edges, canonPair H.nodes e.a e.b = (e.a, e.b) := by
  intro e he
  unfold MultiGraph.addEdge at he
  by_cases h : H.edges.any (fun f => f.a == (canonPair H.nodes u v).1 &&
      f.b == (canonPair H.nodes u v).2 && f.k == k) = true
  · rw [if_pos h] at he
    simp only at he
    obtain ⟨f, hf, hfe⟩ := List.mem_map.mp he
    by_cases hcond : (f.a == (canonPair H.nodes u v).1 &&
        f.b == (canonPair H.nodes u v).2 && f.k == k) = true
    · rw [if_pos hcond] at hfe
      subst hfe
      exact hc f hf
    · rw [if_neg hcond] at hfe
      subst hfe
      exact hc f hf
  · rw [if_neg h] at he
    simp only at he
    rcases List.mem_append.mp he with he | he
    · exact hc e he
    · rw [List.mem_singleton] at he
      subst he
      exact canonPair_idem H.nodes u v

theorem addEdge_slots_nodup (H : MultiGraph) (u v k : Nat) (d : EdgeData)
    (hnd : (H.edges.map edgeSlot).Nodup) :
    ((H.addEdge u v k d).edges.map edgeSlot).Nodup := by
  unfold MultiGraph.addEdge
  by_cases h : H.edges.any (fun f => f.a == (canonPair H.nodes u v).1 &&
      f.b == (canonPair H.nodes u v).2 && f.k == k) = true
  · rw [if_pos h]
    simp only
    rw [List.map_map]
    have : (edgeSlot ∘ fun e => if e.a == (canonPair H.nodes u v).1 &&
        e.b == (canonPair H.nodes u v).2 && e.k == k then { e with d := d } else e)
        = edgeSlot := by
      funext e
      by_cases hcond : (e.a == (canonPair H.nodes u v).1 &&
          e.b == (canonPair H.nodes u v).2 && e.k == k) = true
      · simp only [Function.comp, if_pos hcond]
        rfl
      · simp only [Function.comp, if_neg hcond]
    rw [this]
    exact hnd
  · rw [if_neg h]
    simp only
    rw [List.map_append, List.nodup_append]
    refine ⟨hnd, by simp, ?_⟩
    intro s hs hmem
    simp only [List.map_cons, List.map_nil, List.mem_singleton] at hmem
    subst hmem
    obtain ⟨f, hf, hfs⟩ := List.mem_map.mp hs
    rw [Bool.not_eq_true] at h
    have := List.any_eq_false.mp h f hf
    apply this
    unfold edgeSlot at hfs
    rw [Prod.mk.injEq, Prod.mk.injEq] at hfs
    simp [hfs.1, hfs.2.1, hfs.2.2]

theorem addEdge_mem_cases {H : MultiGraph} {u v k : Nat} {d : EdgeData} :
    ∀ x ∈ (H.addEdge u v k d).edges,
      (∃ y ∈ H.edges, x.a = y.a ∧ x.b = y.b ∧ (x.d = y.d ∨ x.d = d)) ∨
      (((x.a = u ∧ x.b = v) ∨ (x.a = v ∧ x.b = u)) ∧ x.d = d) := by
  intro x hx
  unfold MultiGraph.addEdge at hx
  by_cases h : H.edges.any (fun f => f.a == (canonPair H.nodes u v).1 &&
      f.b == (canonPair H.nodes u v).2 && f.k == k) = true
  · rw [if_pos h] at hx
    simp only at hx
    obtain ⟨y, hy, hye⟩ := List.mem_map.mp hx
    by_cases hcond : (y.a == (canonPair H.nodes u v).1 &&
        y.b == (canonPair H.nodes u v).2 && y.k == k) = true
    · rw [if_pos hcond] at hye
      subst hye
      exact Or.inl ⟨y, hy, rfl, rfl, Or.inr rfl⟩
    · rw [if_neg hcond] at hye
      subst hye
      exact Or.inl ⟨y, hy, rfl, rfl, Or.inl rfl⟩
  · rw [if_neg h] at hx
    simp only at hx
    rcases List.mem_append.mp hx with hx | hx
    · exact Or.inl ⟨x, hx, rfl, rfl, Or.inl rfl⟩
    · rw [List.mem_singleton] at hx
      subst hx
      right
      refine ⟨?_, rfl⟩
      unfold canonPair
      by_cases hle : nodeIdx H.nodes u ≤ nodeIdx H.nodes v
      · rw [if_pos hle]
        exact Or.inl ⟨rfl, rfl⟩
      · rw [if_neg hle]
        exact Or.inr ⟨rfl, rfl⟩

theorem addEdge_ne_nil (H : MultiGraph) (u v k : Nat) (d : EdgeData) :
    (H.addEdge u v k d).edges ≠ [] := by
  unfold MultiGraph.addEdge
  by_cases h : H.edges.any (fun f => f.a == (canonPair H.nodes u v).1 &&
      f.b == (canonPair H.nodes u v).2 && f.k == k) = true
  · rw [if_pos h]
    simp only
    intro hc
    rw [List.map_eq_nil_iff] at hc
    rw [hc] at h
    simp at h
  · rw [if_neg h]
    simp only
    intro hc
    exact List.append_ne_nil_of_right_ne_nil _ (by simp) hc

theorem mgFold_nodes (es : List Edge) :
    ∀ acc : MultiGraph,
      (es.foldl (fun H e => H.addEdge e.u e.v e.k e.d) acc).nodes = acc.nodes := by
  induction es with
  | nil =>
    intro acc
    rfl
  | cons e es ih =>
    intro acc
    rw [List.foldl_cons, ih, addEdge_nodes]

theorem mgFold_canon (es : List Edge) :
    ∀ acc : MultiGraph,
      (∀ x ∈ acc.edges, canonPair acc.nodes x.a x.b = (x.a, x.b)) →
      ∀ x ∈ (es.foldl (fun H e => H.addEdge e.u e.v e.k e.d) acc).edges,
        canonPair acc.nodes x.a x.b = (x.a, x.b) := by
  induction es with
  | nil =>
    intro acc h
    exact h
  | cons e es ih =>
    intro acc h
    rw [List.foldl_cons]
    have h2 := addEdge_slot_canon acc e.u e.v e.k e.d h
    rw [← addEdge_nodes acc e.u e.v e.k e.d] at h2 ⊢
    exact ih _ h2

theorem mgFold_slots_nodup (es : List Edge) :
    ∀ acc : MultiGraph, (acc.edges.map edgeSlot).Nodup →
      ((es.foldl (fun H e => H.addEdge e.u e.v e.k e.d) acc).edges.map edgeSlot).Nodup := by
  induction es with
  | nil =>
    intro acc h
    exact h
  | cons e es ih =>
    intro acc h
    rw [List.foldl_cons]
    exact ih _ (addEdge_slots_nodup acc e.u e.v e.k e.d h)

theorem mgFold_data_prop (P : EdgeData → Prop) (es : List Edge) :
    ∀ acc : MultiGraph,
      (∀ x ∈ acc.edges, P x.d) → (∀ e ∈ es, P e.d) →
      ∀ x ∈ (es.foldl (fun H e => H.addEdge e.u e.v e.k e.d) acc).edges, P x.d := by
  induction es with
  | nil =>
    intro acc hacc _
    exact hacc
  | cons e es ih =>
    intro acc hacc hes
    rw [List.foldl_cons]
    refine ih _ ?_ (fun f hf => hes f (List.mem_cons_of_mem e hf))
    intro x hx
    rcases addEdge_mem_cases x hx with ⟨y, hy, _, _, h3 | h3⟩ | ⟨_, hd⟩
    · rw [h3]
      exact hacc y hy
    · rw [h3]
      exact hes e (List.mem_cons_self e es)
    · rw [hd]
      exact hes e (List.mem_cons_self e es)

theorem mgFold_ab_prop (Q : Nat → Nat → Prop) (es : List Edge) :
    ∀ acc : MultiGraph,
      (∀ x ∈ acc.edges, Q x.a x.b) → (∀ e ∈ es, Q e.u e.v ∧ Q e.v e.u) →
      ∀ x ∈ (es.foldl (fun H e => H.addEdge e.u e.v e.k e.d) acc).edges, Q x.a x.b := by
  induction es with
  | nil =>
    intro acc hacc _
    exact hacc
  | cons e es ih =>
    intro acc hacc hes
    rw [List.foldl_cons]
    refine ih _ ?_ (fun f hf => hes f (List.mem_cons_of_mem e hf))
    intro x hx
    rcases addEdge_mem_cases x hx with ⟨y, hy, h1, h2, _⟩ | ⟨⟨h1, h2⟩ | ⟨h1, h2⟩, _⟩
    · rw [h1, h2]
      exact hacc y hy
    · rw [h1, h2]
      exact (hes e (List.mem_cons_self e es)).1
    · rw [h1, h2]
      exact (hes e (List.mem_cons_self e es)).2

theorem mgFold_ne_nil (es : List Edge) :
    ∀ acc : MultiGraph, acc.edges ≠ [] →
      (es.foldl (fun H e => H.addEdge e.u e.v e.k e.d) acc).edges ≠ [] := by
  induction es with
  | nil =>
    intro acc h
    exact h
  | cons e es ih =>
    intro acc _
    rw [List.foldl_cons]
    exact ih _ (addEdge_ne_nil acc e.u e.v e.k e.d)

theorem buildMG_ne_nil {G : MultiDiGraph} (h : G.edges ≠ []) : (buildMG G).edges ≠ [] := by
  unfold buildMG
  cases hes : G.edges with
  | nil => exact absurd hes h
  | cons e es =>
    rw [List.foldl_cons]
    exact mgFold_ne_nil es _ (addEdge_ne_nil _ e.u e.v e.k e.d)

theorem removeDuplicates_nodes (H : MultiGraph) : (removeDuplicates H).nodes = H.nodes := rfl

theorem removeDuplicates_edges (H : MultiGraph) :
    (removeDuplicates H).edges =
      H.edges.filter (fun e => decide (edgeSlot e ∉ dedupFlags H.edges)) := rfl

theorem removeDuplicates_ne_nil {H : MultiGraph}
    (hwf : (H.edges.map edgeSlot).Nodup) (h : H.edges ≠ []) :
    (removeDuplicates H).edges ≠ [] := by
  rw [removeDuplicates_edges]
  have hcons : H.edges.head h :: H.edges.tail = H.edges := List.head_cons_tail _ h
  set e0 := H.edges.head h with he0def
  have he0 : e0 ∈ H.edges := List.head_mem h
  have hrep : rep H.edges e0 = some e0 := by
    rw [rep, ← hcons]
    exact List.find?_cons_of_pos _ (relB_refl e0)
  have hnot : edgeSlot e0 ∉ dedupFlags H.edges := by
    rw [dedupFlags_mem_iff hwf he0, not_ne_iff]
    exact hrep
  intro hc
  rw [List.filter_eq_nil_iff] at hc
  exact hc e0 he0 (by simpa using hnot)

theorem rekeyFold_nodes (fl : List Edge) :
    ∀ g : MultiDiGraph, (fl.foldl rekeyOne g).nodes = g.nodes := by
  induction fl with
  | nil =>
    intro g
    rfl
  | cons e fl ih =>
    intro g
    rw [List.foldl_cons, ih]
    rfl

theorem rekeyFold_uv_prop (Q : Nat → Nat → Prop) (fl : List Edge) :
    ∀ g : MultiDiGraph,
      (∀ x ∈ g.edges, Q x.u x.v) → (∀ f ∈ fl, Q f.u f.v) →
      ∀ x ∈ (fl.foldl rekeyOne g).edges, Q x.u x.v := by
  induction fl with
  | nil =>
    intro g h _
    exact h
  | cons e fl ih =>
    intro g h hfl
    rw [List.foldl_cons]
    refine ih _ ?_ (fun f hf => hfl f (List.mem_cons_of_mem e hf))
    intro x hx
    rcases (mem_rekeyOne.mp hx).1 with hxg | rfl
    · exact h x hxg
    · exact hfl e (List.mem_cons_self e fl)

theorem rekeyFold_data_prop (P : EdgeData → Prop) (fl : List Edge) :
    ∀ g : MultiDiGraph,
      (∀ x ∈ g.edges, P x.d) → (∀ f ∈ fl, P f.d) →
      ∀ x ∈ (fl.foldl rekeyOne g).edges, P x.d := by
  induction fl with
  | nil =>
    intro g h _
    exact h
  | cons e fl ih =>
    intro g h hfl
    rw [List.foldl_cons]
    refine ih _ ?_ (fun f hf => hfl f (List.mem_cons_of_mem e hf))
    intro x hx
    rcases (mem_rekeyOne.mp hx).1 with hxg | rfl
    · exact h x hxg
    · exact hfl e (List.mem_cons_self e fl)

theorem update_edge_keys_ok {G : MultiDiGraph} (h : G.edges ≠ []) :
    update_edge_keys G = Except.ok ((flaggedReps G.edges).foldl rekeyOne G) := by
  unfold update_edge_keys
  rw [if_neg]
  rw [List.isEmpty_iff]
  exact h

theorem flaggedReps_geom {es : List Edge} : ∀ f ∈ flaggedReps es, f.d.geometry.isSome = true := by
  intro f hf
  obtain ⟨l, _, hfl⟩ := List.mem_filterMap.mp hf
  have hmem := flaggedReps_head_mem hfl
  have := (List.mem_filter.mp ((List.mem_filter.mp hmem).1)).2
  rw [Bool.and_eq_true] at this
  exact this.2

theorem nodeIdx_inj {ns : List (Nat × Int × Int)} (hnd : (ns.map Prod.fst).Nodup)
    {x y : Nat} (hx : x ∈ ns.map Prod.fst) (hy : y ∈ ns.map Prod.fst)
    (h : nodeIdx ns x = nodeIdx ns y) : x = y := by
  induction ns with
  | nil => cases hx
  | cons p ns ih =>
    rw [List.map_cons, List.nodup_cons] at hnd
    rw [List.map_cons, List.mem_cons] at hx hy
    unfold nodeIdx at h
    rw [List.findIdx_cons, List.findIdx_cons] at h
    by_cases hpx : p.1 = x
    · by_cases hpy : p.1 = y
      · exact hpx.symm.trans hpy
      · have hbx : (p.1 == x) = true := beq_iff_eq.mpr hpx
        have hby : (p.1 == y) = false := beq_eq_false_iff_ne.mpr hpy
        rw [hbx, hby, cond_true, cond_false] at h
        cases h
    · by_cases hpy : p.1 = y
      · have hbx : (p.1 == x) = false := beq_eq_false_iff_ne.mpr hpx
        have hby : (p.1 == y) = true := beq_iff_eq.mpr hpy
        rw [hbx, hby, cond_false, cond_true] at h
        cases h
      · have hbx : (p.1 == x) = false := beq_eq_false_iff_ne.mpr hpx
        have hby : (p.1 == y) = false := beq_eq_false_iff_ne.mpr hpy
        rw [hbx, hby, cond_false, cond_false] at h
        rcases hx with hx | hx
        · exact absurd hx.symm hpx
        · rcases hy with hy | hy
          · exact absurd hy.symm hpy
          · refine ih hnd.2 hx hy ?_
            unfold nodeIdx
            omega

theorem canonPair_fix_le {ns : List (Nat × Int × Int)} {a b : Nat}
    (h : canonPair ns a b = (a, b)) : nodeIdx ns a ≤ nodeIdx ns b ∨ a = b := by
  unfold canonPair at h
  by_cases hle : nodeIdx ns a ≤ nodeIdx ns b
  · exact Or.inl hle
  · rw [if_neg hle, Prod.mk.injEq] at h
    exact Or.inr h.1.symm

theorem countP_le_one {α : Type} (p : α → Bool) (l : List α) (hnd : l.Nodup) (e : α)
    (hall : ∀ x ∈ l, p x = true → x = e) : l.countP p ≤ 1 := by
  rw [List.countP_eq_length_filter]
  have hfnd : (l.filter p).Nodup := hnd.filter p
  cases hf : l.filter p with
  | nil => simp
  | cons x tail =>
    cases htl : tail with
    | nil => simp
    | cons y t2 =>
      exfalso
      have hx : x ∈ l.filter p := by
        rw [hf]
        exact List.mem_cons_self _ _
      have hy : y ∈ l.filter p := by
        rw [hf, htl]
        exact List.mem_cons_of_mem _ (List.mem_cons_self _ _)
      obtain ⟨hxl, hxp⟩ := List.mem_filter.mp hx
      obtain ⟨hyl, hyp⟩ := List.mem_filter.mp hy
      rw [hf, htl, List.nodup_cons] at hfnd
      exact hfnd.1 (by rw [hall x hxl hxp, hall y hyl hyp]; exact List.mem_cons_self _ _)

theorem find?_eq_some_of_unique {α : Type} (p : α → Bool) :
    ∀ (l : List α) (e : α), e ∈ l → p e = true → (∀ x ∈ l, p x = true → x = e) →
      l.find? p = some e := by
  intro l
  induction l with
  | nil =>
    intro e he
    cases he
  | cons a l ih =>
    intro e he hpe huniq
    by_cases hpa : p a = true
    · rw [List.find?_cons_of_pos _ hpa]
      rw [huniq a (List.mem_cons_self a l) hpa]
    · rw [List.find?_cons_of_neg _ hpa]
      rcases List.mem_cons.mp he with rfl | he
      · exact absurd hpe hpa
      · exact ih e he hpe (fun x hx hpx => huniq x (List.mem_cons_of_mem a hx) hpx)

theorem labelMG_eq_slot {ns : List (Nat × Int × Int)} (hnd : (ns.map Prod.fst).Nodup)
    {e1 e2 : MGEdge}
    (hc1 : canonPair ns e1.a e1.b = (e1.a, e1.b)) (hc2 : canonPair ns e2.a e2.b = (e2.a, e2.b))
    (hm1a : e1.a ∈ ns.map Prod.fst) (hm1b : e1.b ∈ ns.map Prod.fst)
    (hl : uvkLabelMG e1 = uvkLabelMG e2) : edgeSlot e1 = edgeSlot e2 := by
  unfold uvkLabelMG upairMG at hl
  rw [Prod.mk.injEq, Prod.mk.injEq] at hl
  obtain ⟨⟨hmin, hmax⟩, hk⟩ := hl
  have hpair : (e1.a = e2.a ∧ e1.b = e2.b) ∨ (e1.a = e2.b ∧ e1.b = e2.a) := by omega
  have habs : e1.a = e2.a ∧ e1.b = e2.b := by
    rcases hpair with ⟨h1, h2⟩ | ⟨h1, h2⟩
    · exact ⟨h1, h2⟩
    · have he11 : e1.a = e1.b := by
        rcases canonPair_fix_le hc1 with hle1 | heq1
        · rcases canonPair_fix_le hc2 with hle2 | heq2
          · rw [← h2, ← h1] at hle2
            exact nodeIdx_inj hnd hm1a hm1b (Nat.le_antisymm hle1 hle2)
          · rw [h1, h2, heq2]
        · exact heq1
      constructor
      · rw [← h2]
        exact he11
      · rw [← h1]
        exact he11.symm
  unfold edgeSlot
  rw [habs.1, habs.2, hk]

theorem is_duplicate_edge_restamp (e f : MGEdge) :
    is_duplicate_edge (restampMG e).d (restampMG f).d = is_duplicate_edge e.d f.d := rfl

theorem stampEdgeMG_eq (H : MultiGraph) (e : MGEdge) (hg : e.d.geometry.isSome = true) :
    stampEdgeMG H e = Except.ok (restampMG e) := by
  obtain ⟨g, hgeq⟩ := Option.isSome_iff_exists.mp hg
  unfold stampEdgeMG restampMG
  simp only [hgeq]

theorem update_edge_keys_mg_id (H : MultiGraph)
    (hne : H.edges ≠ [])
    (hnd : (H.edges.map edgeSlot).Nodup)
    (hnodes : (H.nodes.map Prod.fst).Nodup)
    (hcanon : ∀ e ∈ H.edges, canonPair H.nodes e.a e.b = (e.a, e.b))
    (hmem : ∀ e ∈ H.edges, e.a ∈ H.nodes.map Prod.fst ∧ e.b ∈ H.nodes.map Prod.fst) :
    update_edge_keys_mg H = Except.ok H := by
  have hdeq : dupeRowsMG H.edges = [] := by
    unfold dupeRowsMG
    rw [List.filter_eq_nil_iff]
    intro e he hc
    rw [Bool.and_eq_true, decide_eq_true_eq] at hc
    have hle : H.edges.countP (fun f => decide (uvkLabelMG f = uvkLabelMG e)) ≤ 1 := by
      refine countP_le_one _ _ (List.Nodup.of_map edgeSlot hnd) e ?_
      intro x hx hpx
      rw [decide_eq_true_eq] at hpx
      have hslot := labelMG_eq_slot hnodes (hcanon x hx) (hcanon e he)
        (hmem x hx).1 (hmem x hx).2 hpx
      exact slot_inj hnd x hx e he hslot
    omega
  have hflag : flaggedRepsMG H.edges = [] := by
    unfold flaggedRepsMG
    rw [hdeq]
    rfl
  unfold update_edge_keys_mg
  rw [if_neg (by rw [List.isEmpty_iff]; exact hne), hflag]
  rfl

theorem rebuild_fold_id (es : List MGEdge) :
    ∀ acc : MultiGraph,
      ((acc.edges ++ es).map edgeSlot).Nodup →
      (∀ e ∈ es, canonPair acc.nodes e.a e.b = (e.a, e.b)) →
      (es.foldl (fun a e => a.addEdge e.a e.b e.k e.d) acc).edges = acc.edges ++ es := by
  induction es with
  | nil =>
    intro acc _ _
    rw [List.foldl_nil, List.append_nil]
  | cons e es ih =>
    intro acc hnd hcanon
    rw [List.foldl_cons]
    have hcp := hcanon e (List.mem_cons_self e es)
    have hany : acc.edges.any (fun f => f.a == e.a && f.b == e.b && f.k == e.k) = false := by
      rw [List.any_eq_false]
      intro f hf hc
      rw [Bool.and_eq_true, Bool.and_eq_true, beq_iff_eq, beq_iff_eq, beq_iff_eq] at hc
      have hslot : edgeSlot f = edgeSlot e := by
        unfold edgeSlot
        rw [hc.1.1, hc.1.2, hc.2]
      rw [List.map_append, List.nodup_append] at hnd
      exact hnd.2.2 (List.mem_map_of_mem edgeSlot hf)
        (by rw [List.map_cons]; exact hslot ▸ List.mem_cons_self _ _)
    have hadd : (acc.addEdge e.a e.b e.k e.d).edges = acc.edges ++ [e] := by
      unfold MultiGraph.addEdge
      simp only [hcp, hany]
      rfl
    have hnodes : (acc.addEdge e.a e.b e.k e.d).nodes = acc.nodes :=
      addEdge_nodes acc e.a e.b e.k e.d
    have ihres := ih (acc.addEdge e.a e.b e.k e.d)
      (by rw [hadd, List.map_append, List.map_append]
          rw [List.map_append, List.map_cons] at hnd
          simpa using hnd)
      (by intro f hf
          rw [hnodes]
          exact hcanon f (List.mem_cons_of_mem e hf))
    rw [ihres, hadd]
    simp

theorem removeDuplicates_id (H : MultiGraph)
    (hnd : (H.edges.map edgeSlot).Nodup)
    (hnodup : ∀ f ∈ H.edges, ∀ g ∈ H.edges, f ≠ g → f.a = g.a → f.b = g.b →
      is_duplicate_edge f.d g.d = false) :
    removeDuplicates H = H := by
  have hfl : ∀ e ∈ H.edges, edgeSlot e ∉ dedupFlags H.edges := by
    intro e he
    rw [dedupFlags_mem_iff hnd he, not_ne_iff]
    refine find?_eq_some_of_unique _ H.edges e he (relB_refl e) ?_
    intro x hx hpx
    rw [relB_iff] at hpx
    by_contra hxe
    have hfalse := hnodup x hx e he hxe hpx.1 hpx.2.1
    rw [hfalse] at hpx
    exact Bool.false_ne_true hpx.2.2
  have hfilter : H.edges.filter (fun e => decide (edgeSlot e ∉ dedupFlags H.edges)) = H.edges :=
    List.filter_eq_self.mpr (fun e he => decide_eq_true (hfl e he))
  unfold removeDuplicates
  simp only [hfilter]

theorem nodeXY_isSome_iff (G : MultiDiGraph) (n : Nat) :
    (nodeXY G n).isSome = true ↔ n ∈ G.nodes.map Prod.fst := by
  unfold nodeXY
  constructor
  · intro h
    cases hf : List.find? (fun p => p.1 == n) G.nodes with
    | none => rw [hf] at h; simp at h
    | some p =>
      have hp := List.mem_of_find?_eq_some hf
      have hpe := List.find?_some hf
      rw [beq_iff_eq] at hpe
      exact hpe ▸ List.mem_map_of_mem Prod.fst hp
  · intro h
    obtain ⟨p, hp, hpe⟩ := List.mem_map.mp h
    have hs : (List.find? (fun p => p.1 == n) G.nodes).isSome = true :=
      List.find?_isSome.mpr ⟨p, hp, beq_iff_eq.mpr hpe⟩
    obtain ⟨q, hq⟩ := Option.isSome_iff_exists.mp hs
    rw [hq]
    rfl

theorem rekeyOne_ne_nil (g : MultiDiGraph) (e : Edge) (h : g.edges ≠ []) :
    (rekeyOne g e).edges ≠ [] := by
  by_cases hall : ∀ f ∈ g.edges, tripleMatch e f = true
  · -- every old edge matches the removed triple, so e.k is among the pair keys
    obtain ⟨f0, hf0⟩ := List.exists_mem_of_ne_nil _ h
    have hm := (tripleMatch_iff e f0).mp (hall f0 hf0)
    rw [Prod.mk.injEq, Prod.mk.injEq] at hm
    have hks : e.k ∈ pairKeys g e := by
      unfold pairKeys
      refine List.mem_map.mpr ⟨f0, List.mem_filter.mpr ⟨hf0, ?_⟩, hm.2.2⟩
      unfold pairAnyDir
      simp [hm.1, hm.2.1]
    have hlt : e.k < newKeyOf g e := by
      have := mem_le_foldl_max hks 0
      unfold newKeyOf
      omega
    have hnew : tripleMatch e (Edge.mk e.u e.v (newKeyOf g e) e.d) = false := by
      unfold tripleMatch
      simp only [beq_self_eq_true, Bool.true_and]
      rw [beq_eq_false_iff_ne]
      omega
    rw [rekeyOne_edges]
    intro hc
    rw [List.filter_eq_nil_iff] at hc
    exact hc _ (List.mem_append_right _ (List.mem_singleton.mpr rfl)) (by rw [hnew]; simp)
  · push_neg at hall
    obtain ⟨f0, hf0, hnm⟩ := hall
    rw [rekeyOne_edges]
    intro hc
    rw [List.filter_eq_nil_iff] at hc
    refine hc f0 (List.mem_append_left _ hf0) ?_
    cases hb : tripleMatch e f0 with
    | true => exact absurd hb hnm
    | false => rfl

theorem rekeyFold_ne_nil (fl : List Edge) :
    ∀ g : MultiDiGraph, g.edges ≠ [] → (fl.foldl rekeyOne g).edges ≠ [] := by
  induction fl with
  | nil =>
    intro g h
    exact h
  | cons e fl ih =>
    intro g h
    rw [List.foldl_cons]
    exact ih _ (rekeyOne_ne_nil g e h)

theorem edgeSlot_restamp : edgeSlot ∘ restampMG = edgeSlot := by
  funext e
  rfl

theorem except_bind_ok {α β : Type} (a : α) (f : α → Except String β) :
    (Except.ok a >>= f : Except String β) = f a := rfl

/-- The intermediate graph after the stamping pass of `get_undirected`. -/
def stampedG (G : MultiDiGraph) : MultiDiGraph :=
  { G with edges := G.edges.map (stampFill G) }

/-- The intermediate graph after the re-keying pass of `get_undirected`. -/
def rekeyedG (G : MultiDiGraph) : MultiDiGraph :=
  (flaggedReps (stampedG G).edges).foldl rekeyOne (stampedG G)

theorem get_undirected_eq (G G1 G2 : MultiDiGraph)
    (h1 : stampAll G = Except.ok G1)
    (h2 : update_edge_keys G1 = Except.ok G2) :
    get_undirected G = Except.ok (removeDuplicates (buildMG G2)) := by
  unfold get_undirected
  rw [h1]
  show update_edge_keys G1 >>=
    (fun G2 => pure (removeDuplicates (buildMG G2))) = _
  rw [h2]
  rfl

theorem get_undirected_error (G G1 : MultiDiGraph)
    (h1 : stampAll G = Except.ok G1) (h2 : G1.edges = []) :
    get_undirected G =
      Except.error "Graph has no edges, cannot convert to a GeoDataFrame." := by
  unfold get_undirected
  rw [h1]
  show update_edge_keys G1 >>=
    (fun G2 => pure (removeDuplicates (buildMG G2))) = _
  unfold update_edge_keys
  rw [if_pos (List.isEmpty_iff.mpr h2)]
  rfl

theorem get_undirected_mg_eq (H : MultiGraph) (es : List MGEdge)
    (h1 : H.edges.mapM (stampEdgeMG H) = Except.ok es)
    (h2 : update_edge_keys_mg { H with edges := es } =
      Except.ok { H with edges := es }) :
    get_undirected_mg H =
      Except.ok (removeDuplicates (rebuildMG { H with edges := es })) := by
  unfold get_undirected_mg
  rw [h1]
  show update_edge_keys_mg { H with edges := es } >>=
    (fun H2 => pure (removeDuplicates (rebuildMG H2))) = _
  rw [h2]
  rfl

theorem mgFold_nodes_mg (es : List MGEdge) :
    ∀ acc : MultiGraph,
      (es.foldl (fun a e => a.addEdge e.a e.b e.k e.d) acc).nodes = acc.nodes := by
  induction es with
  | nil =>
    intro acc
    rfl
  | cons e es ih =>
    intro acc
    rw [List.foldl_cons, ih, addEdge_nodes]

theorem rebuildMG_eq (H : MultiGraph)
    (hnd : (H.edges.map edgeSlot).Nodup)
    (hcanon : ∀ e ∈ H.edges, canonPair H.nodes e.a e.b = (e.a, e.b)) :
    rebuildMG H = H := by
  have hedges : (rebuildMG H).edges = [] ++ H.edges := by
    unfold rebuildMG
    exact rebuild_fold_id H.edges { nodes := H.nodes, edges := [] }
      (by simpa using hnd) (by simpa using hcanon)
  have hnodes : (rebuildMG H).nodes = H.nodes := by
    unfold rebuildMG
    exact mgFold_nodes_mg H.edges _
  calc rebuildMG H = ⟨(rebuildMG H).nodes, (rebuildMG H).edges⟩ := rfl
    _ = ⟨H.nodes, H.edges⟩ := by rw [hnodes, hedges, List.nil_append]
    _ = H := rfl

theorem stampedG_edges (G : MultiDiGraph) :
    (stampedG G).edges = G.edges.map (stampFill G) := rfl

theorem stampedG_end (G : MultiDiGraph)
    (hwfe : ∀ e ∈ G.edges, (nodeXY G e.u).isSome ∧ (nodeXY G e.v).isSome) :
    ∀ x ∈ (stampedG G).edges,
      x.u ∈ G.nodes.map Prod.fst ∧ x.v ∈ G.nodes.map Prod.fst := by
  intro x hx
  obtain ⟨e, he, hxe⟩ := List.mem_map.mp hx
  rw [← hxe]
  exact ⟨(nodeXY_isSome_iff G e.u).mp (hwfe e he).1,
         (nodeXY_isSome_iff G e.v).mp (hwfe e he).2⟩

theorem rekeyedG_nodes (G : MultiDiGraph) : (rekeyedG G).nodes = G.nodes := by
  unfold rekeyedG
  rw [rekeyFold_nodes]
  rfl

theorem rekeyedG_end (G : MultiDiGraph)
    (hwfe : ∀ e ∈ G.edges, (nodeXY G e.u).isSome ∧ (nodeXY G e.v).isSome) :
    ∀ x ∈ (rekeyedG G).edges,
      x.u ∈ G.nodes.map Prod.fst ∧ x.v ∈ G.nodes.map Prod.fst := by
  unfold rekeyedG
  exact rekeyFold_uv_prop
    (fun u v => u ∈ G.nodes.map Prod.fst ∧ v ∈ G.nodes.map Prod.fst)
    (flaggedReps (stampedG G).edges) (stampedG G)
    (stampedG_end G hwfe)
    (fun f hf => stampedG_end G hwfe f (flaggedReps_sub f hf))

theorem rekeyedG_geom (G : MultiDiGraph) :
    ∀ x ∈ (rekeyedG G).edges, x.d.geometry.isSome = true := by
  unfold rekeyedG
  refine rekeyFold_data_prop (fun d => d.geometry.isSome = true)
    (flaggedReps (stampedG G).edges) (stampedG G) ?_ flaggedReps_geom
  intro x hx
  obtain ⟨e, _, hxe⟩ := List.mem_map.mp hx
  rw [← hxe]
  exact stampFill_geom G e

theorem rekeyedG_ne_nil (G : MultiDiGraph) (hne : G.edges ≠ []) :
    (rekeyedG G).edges ≠ [] := by
  unfold rekeyedG
  refine rekeyFold_ne_nil _ _ ?_
  rw [stampedG_edges]
  intro hc
  exact hne (List.map_eq_nil_iff.mp hc)

theorem get_undirected_shape (G : MultiDiGraph) (hwf : G.WF) (H : MultiGraph)
    (hok : get_undirected G = Except.ok H) :
    H.nodes = G.nodes ∧
    (H.edges.map edgeSlot).Nodup ∧
    (∀ e ∈ H.edges, canonPair H.nodes e.a e.b = (e.a, e.b)) ∧
    (∀ e ∈ H.edges, e.a ∈ H.nodes.map Prod.fst ∧ e.b ∈ H.nodes.map Prod.fst) ∧
    (∀ e ∈ H.edges, e.d.geometry.isSome = true) ∧
    (∀ f ∈ H.edges, ∀ g ∈ H.edges, f ≠ g → f.a = g.a → f.b = g.b →
      is_duplicate_edge f.d g.d = false) ∧
    H.edges ≠ [] := by
  obtain ⟨hwfn, hwfe, hwft⟩ := hwf
  have hstamp : stampAll G = Except.ok (stampedG G) := stampAll_eq G hwfe
  have hGne : G.edges ≠ [] := by
    intro hnil
    have h2 : (stampedG G).edges = [] := by
      rw [stampedG_edges, hnil]
      rfl
    rw [get_undirected_error G (stampedG G) hstamp h2] at hok
    exact Except.noConfusion hok
  have h1ne : (stampedG G).edges ≠ [] := by
    rw [stampedG_edges]
    intro hc
    exact hGne (List.map_eq_nil_iff.mp hc)
  have hupd : update_edge_keys (stampedG G) = Except.ok (rekeyedG G) :=
    update_edge_keys_ok h1ne
  have hH : H = removeDuplicates (buildMG (rekeyedG G)) := by
    rw [get_undirected_eq G (stampedG G) (rekeyedG G) hstamp hupd] at hok
    exact (Except.ok.injEq _ _).mp hok.symm
  have hfold : buildMG (rekeyedG G) =
      (rekeyedG G).edges.foldl (fun H e => H.addEdge e.u e.v e.k e.d)
        { nodes := (rekeyedG G).nodes, edges := [] } := rfl
  have hpn : (buildMG (rekeyedG G)).nodes = G.nodes := by
    rw [hfold, mgFold_nodes, rekeyedG_nodes]
  have hpnd : ((buildMG (rekeyedG G)).edges.map edgeSlot).Nodup := by
    rw [hfold]
    exact mgFold_slots_nodup _ _ (by simp)
  have hpcanon : ∀ x ∈ (buildMG (rekeyedG G)).edges,
      canonPair G.nodes x.a x.b = (x.a, x.b) := by
    intro x hx
    rw [hfold] at hx
    have := mgFold_canon (rekeyedG G).edges
      { nodes := (rekeyedG G).nodes, edges := [] }
      (fun y hy => absurd hy (List.not_mem_nil y)) x hx
    rw [← rekeyedG_nodes G]
    exact this
  have hpmem : ∀ x ∈ (buildMG (rekeyedG G)).edges,
      x.a ∈ G.nodes.map Prod.fst ∧ x.b ∈ G.nodes.map Prod.fst := by
    intro x hx
    rw [hfold] at hx
    refine mgFold_ab_prop
      (fun a b => a ∈ G.nodes.map Prod.fst ∧ b ∈ G.nodes.map Prod.fst)
      (rekeyedG G).edges _ (fun y hy => absurd hy (List.not_mem_nil y)) ?_ x hx
    intro e he
    have h := rekeyedG_end G hwfe e he
    exact ⟨h, h.symm⟩
  have hpgeom : ∀ x ∈ (buildMG (rekeyedG G)).edges, x.d.geometry.isSome = true := by
    intro x hx
    rw [hfold] at hx
    exact mgFold_data_prop (fun d => d.geometry.isSome = true) (rekeyedG G).edges _
      (fun y hy => absurd hy (List.not_mem_nil y)) (rekeyedG_geom G) x hx
  have hpne : (buildMG (rekeyedG G)).edges ≠ [] :=
    buildMG_ne_nil (rekeyedG_ne_nil G hGne)
  have hsub : ∀ e ∈ H.edges,
      e ∈ (buildMG (rekeyedG G)).edges ∧
      edgeSlot e ∉ dedupFlags (buildMG (rekeyedG G)).edges := by
    intro e he
    rw [hH, removeDuplicates_edges] at he
    have h := List.mem_filter.mp he
    exact ⟨h.1, of_decide_eq_true h.2⟩
  have hnodes : H.nodes = G.nodes := by
    rw [hH, removeDuplicates_nodes]
    exact hpn
  refine ⟨hnodes, ?_, ?_, ?_, ?_, ?_, ?_⟩
  · rw [hH, removeDuplicates_edges]
    exact List.Nodup.sublist (List.Sublist.map edgeSlot (List.filter_sublist _)) hpnd
  · intro e he
    rw [hnodes]
    exact hpcanon e (hsub e he).1
  · intro e he
    rw [hnodes]
    exact hpmem e (hsub e he).1
  · intro e he
    exact hpgeom e (hsub e he).1
  · intro f hf g hg hne ha hb
    exact dedup_survivors_not_duplicate hpnd (hsub f hf).1 (hsub g hg).1
      (hsub f hf).2 (hsub g hg).2 hne ha hb
  · rw [hH]
    exact removeDuplicates_ne_nil hpnd hpne

/-- C9 amended: applying the undirect transform to its own output changes
nothing except the `from`/`to` direction markers, which are re-stamped to the
reported (canonical) orientation of each undirected edge: for every
well-formed multidigraph `G` whose undirecting succeeds with output `H`, the
second pass succeeds and returns `H` with every edge's attribute bundle
re-stamped (same node set, same edges in the same order, same keys, osmids,
geometries and weights; only the markers move).  Exact idempotence fails
precisely because of this re-stamping, as `C9_counterexample` shows. -/
theorem C9_second_pass_restamps_markers (G : MultiDiGraph) (hwf : G.WF)
    (H : MultiGraph) (hok : get_undirected G = Except.ok H) :
    get_undirected_mg H = Except.ok { H with edges := H.edges.map restampMG } := by
  obtain ⟨hnodes, hnd, hcanon, hmem, hgeom, hnodup, hne⟩ :=
    get_undirected_shape G hwf H hok
  have hwfn : (H.nodes.map Prod.fst).Nodup := by
    rw [hnodes]
    exact hwf.1
  have hmapM : H.edges.mapM (stampEdgeMG H) = Except.ok (H.edges.map restampMG) :=
    mapM_ok _ restampMG H.edges (fun e he => stampEdgeMG_eq H e (hgeom e he))
  have hslot1 : (H.edges.map restampMG).map edgeSlot = H.edges.map edgeSlot := by
    rw [List.map_map, edgeSlot_restamp]
  have hnd1 : ((H.edges.map restampMG).map edgeSlot).Nodup := by
    rw [hslot1]
    exact hnd
  have hcanon1 : ∀ e ∈ H.edges.map restampMG,
      canonPair H.nodes e.a e.b = (e.a, e.b) := by
    intro x hx
    obtain ⟨e, he, hxe⟩ := List.mem_map.mp hx
    rw [← hxe]
    exact hcanon e he
  have hmem1 : ∀ e ∈ H.edges.map restampMG,
      e.a ∈ H.nodes.map Prod.fst ∧ e.b ∈ H.nodes.map Prod.fst := by
    intro x hx
    obtain ⟨e, he, hxe⟩ := List.mem_map.mp hx
    rw [← hxe]
    exact hmem e he
  have hne1 : H.edges.map restampMG ≠ [] := by
    intro hc
    exact hne (List.map_eq_nil_iff.mp hc)
  have hupd : update_edge_keys_mg { H with edges := H.edges.map restampMG } =
      Except.ok { H with edges := H.edges.map restampMG } :=
    update_edge_keys_mg_id _ hne1 hnd1 hwfn hcanon1 hmem1
  have hnodup1 : ∀ f ∈ H.edges.map restampMG, ∀ g ∈ H.edges.map restampMG,
      f ≠ g → f.a = g.a → f.b = g.b → is_duplicate_edge f.d g.d = false := by
    intro x hx y hy hxy ha hb
    obtain ⟨f, hf, hfx⟩ := List.mem_map.mp hx
    obtain ⟨g, hg, hgy⟩ := List.mem_map.mp hy
    rw [← hfx, ← hgy, is_duplicate_edge_restamp]
    refine hnodup f hf g hg ?_ ?_ ?_
    · intro hfg
      exact hxy (by rw [← hfx, ← hgy, hfg])
    · rw [← hfx, ← hgy] at ha
      exact ha
    · rw [← hfx, ← hgy] at hb
      exact hb
  have hreb : rebuildMG { H with edges := H.edges.map restampMG } =
      { H with edges := H.edges.map restampMG } :=
    rebuildMG_eq _ hnd1 hcanon1
  have hrem : removeDuplicates { H with edges := H.edges.map restampMG } =
      { H with edges := H.edges.map restampMG } :=
    removeDuplicates_id _ hnd1 hnodup1
  rw [get_undirected_mg_eq H (H.edges.map restampMG) hmapM hupd, hreb, hrem]

theorem C9_second_pass_restamps_markers_witness :
    oneWayGraph.WF ∧
    get_undirected oneWayGraph = Except.ok oneWayOut ∧
    get_undirected_mg oneWayOut =
      Except.ok { oneWayOut with edges := oneWayOut.edges.map restampMG } :=
  ⟨by decide, rfl,
    C9_second_pass_restamps_markers oneWayGraph (by decide) oneWayOut rfl⟩

/-- The undirected slot a directed edge lands in when inserted by
`H.add_edges_from(G.edges(keys=True, data=True))`: the canonical endpoint
pair together with the key. -/
def slotOf (ns : List (Nat × Int × Int)) (e : Edge) : Nat × Nat × Nat :=
  ((canonPair ns e.u e.v).1, (canonPair ns e.u e.v).2, e.k)

/-- Membership test of an undirected edge in a given slot. -/
def slotPred (s : Nat × Nat × Nat) (e : MGEdge) : Bool := decide (edgeSlot e = s)

theorem slotPred_iff (s : Nat × Nat × Nat) (e : MGEdge) :
    slotPred s e = true ↔ edgeSlot e = s := by
  simp [slotPred]

theorem canonPair_swap {ns : List (Nat × Int × Int)} (hnd : (ns.map Prod.fst).Nodup)
    {u v : Nat} (hu : u ∈ ns.map Prod.fst) (hv : v ∈ ns.map Prod.fst) :
    canonPair ns v u = canonPair ns u v := by
  by_cases huv : u = v
  · rw [huv]
  · have hne : nodeIdx ns u ≠ nodeIdx ns v := fun h => huv (nodeIdx_inj hnd hu hv h)
    unfold canonPair
    by_cases hle : nodeIdx ns u ≤ nodeIdx ns v
    · rw [if_pos hle, if_neg (by omega)]
    · rw [if_neg hle, if_pos (by omega)]

theorem filter_map_frame {α : Type} (p : α → Bool) (f : α → α) (l : List α)
    (h1 : ∀ x, p x = true → f x = x) (h2 : ∀ x, p (f x) = p x) :
    (l.map f).filter p = l.filter p := by
  induction l with
  | nil => rfl
  | cons a l ih =>
    rw [List.map_cons, List.filter_cons, List.filter_cons, h2 a]
    cases hpa : p a with
    | true => rw [if_pos rfl, if_pos rfl, h1 a hpa, ih]
    | false => rw [if_neg Bool.false_ne_true, if_neg Bool.false_ne_true, ih]

theorem filter_map_comm {α : Type} (p : α → Bool) (f : α → α) (l : List α)
    (h2 : ∀ x, p (f x) = p x) :
    (l.map f).filter p = (l.filter p).map f := by
  induction l with
  | nil => rfl
  | cons a l ih =>
    rw [List.map_cons, List.filter_cons, List.filter_cons, h2 a]
    cases hpa : p a with
    | true => rw [if_pos rfl, if_pos rfl, List.map_cons, ih]
    | false => rw [if_neg Bool.false_ne_true, if_neg Bool.false_ne_true, ih]

theorem mem_len_le_one {α : Type} {l : List α} {w : α} (hle : l.length ≤ 1)
    (hw : w ∈ l) : l = [w] := by
  cases l with
  | nil => cases hw
  | cons a t =>
    cases t with
    | nil => rw [List.mem_singleton.mp hw]
    | cons b t2 => simp at hle

theorem filter_slot_len_le_one {l : List MGEdge} (hnd : (l.map edgeSlot).Nodup)
    (s : Nat × Nat × Nat) : (l.filter (slotPred s)).length ≤ 1 := by
  induction l with
  | nil => simp
  | cons a l ih =>
    rw [List.map_cons, List.nodup_cons] at hnd
    rw [List.filter_cons]
    cases hpa : slotPred s a with
    | false =>
      rw [if_neg Bool.false_ne_true]
      exact ih hnd.2
    | true =>
      rw [if_pos rfl]
      have hnil : l.filter (slotPred s) = [] := by
        rw [List.filter_eq_nil_iff]
        intro x hx hpx
        have hxa : edgeSlot x = edgeSlot a := by
          rw [(slotPred_iff s x).mp hpx, (slotPred_iff s a).mp hpa]
        exact hnd.1 (hxa ▸ List.mem_map_of_mem edgeSlot hx)
      rw [hnil]
      simp

theorem addEdge_slot_filter_other (acc : MultiGraph) (e : Edge) (s : Nat × Nat × Nat)
    (hns : slotOf acc.nodes e ≠ s) :
    (acc.addEdge e.u e.v e.k e.d).edges.filter (slotPred s) =
      acc.edges.filter (slotPred s) := by
  unfold MultiGraph.addEdge
  by_cases h : acc.edges.any (fun f => f.a == (canonPair acc.nodes e.u e.v).1 &&
      f.b == (canonPair acc.nodes e.u e.v).2 && f.k == e.k) = true
  · rw [if_pos h]
    simp only
    refine filter_map_frame _ _ _ ?_ ?_
    · intro x hpx
      by_cases hcond : (x.a == (canonPair acc.nodes e.u e.v).1 &&
          x.b == (canonPair acc.nodes e.u e.v).2 && x.k == e.k) = true
      · exfalso
        rw [Bool.and_eq_true, Bool.and_eq_true, beq_iff_eq, beq_iff_eq, beq_iff_eq] at hcond
        apply hns
        have hx : edgeSlot x = slotOf acc.nodes e := by
          unfold slotOf edgeSlot
          rw [hcond.1.1, hcond.1.2, hcond.2]
        rw [← hx]
        exact (slotPred_iff s x).mp hpx
      · rw [if_neg hcond]
    · intro x
      by_cases hcond : (x.a == (canonPair acc.nodes e.u e.v).1 &&
          x.b == (canonPair acc.nodes e.u e.v).2 && x.k == e.k) = true
      · rw [if_pos hcond]
        rfl
      · rw [if_neg hcond]
  · rw [if_neg h]
    simp only
    rw [List.filter_append]
    have hone : [(⟨(canonPair acc.nodes e.u e.v).1, (canonPair acc.nodes e.u e.v).2,
        e.k, e.d⟩ : MGEdge)].filter (slotPred s) = [] := by
      rw [List.filter_eq_nil_iff]
      intro x hx hpx
      rw [List.mem_singleton] at hx
      subst hx
      exact hns ((slotPred_iff s _).mp hpx)
    rw [hone, List.append_nil]

theorem addEdge_slot_filter_hit (acc : MultiGraph) (e : Edge) (s : Nat × Nat × Nat)
    (heq : slotOf acc.nodes e = s)
    (hle : (acc.edges.filter (slotPred s)).length ≤ 1) :
    (acc.addEdge e.u e.v e.k e.d).edges.filter (slotPred s) =
      [⟨s.1, s.2.1, s.2.2, e.d⟩] := by
  have hs1 : (canonPair acc.nodes e.u e.v).1 = s.1 := by
    rw [← heq]
    rfl
  have hs2 : (canonPair acc.nodes e.u e.v).2 = s.2.1 := by
    rw [← heq]
    rfl
  have hs3 : e.k = s.2.2 := by
    rw [← heq]
    rfl
  unfold MultiGraph.addEdge
  by_cases h : acc.edges.any (fun f => f.a == (canonPair acc.nodes e.u e.v).1 &&
      f.b == (canonPair acc.nodes e.u e.v).2 && f.k == e.k) = true
  · rw [if_pos h]
    simp only
    obtain ⟨w, hw, hwc⟩ := List.any_eq_true.mp h
    have hwc' := hwc
    rw [Bool.and_eq_true, Bool.and_eq_true, beq_iff_eq, beq_iff_eq, beq_iff_eq] at hwc'
    have hwslot : edgeSlot w = s := by
      unfold edgeSlot
      rw [hwc'.1.1, hwc'.1.2, hwc'.2, hs1, hs2, hs3]
    have hwf : w ∈ acc.edges.filter (slotPred s) :=
      List.mem_filter.mpr ⟨hw, (slotPred_iff s w).mpr hwslot⟩
    have hfw : acc.edges.filter (slotPred s) = [w] := mem_len_le_one hle hwf
    have h2 : ∀ x : MGEdge, slotPred s (if x.a == (canonPair acc.nodes e.u e.v).1 &&
        x.b == (canonPair acc.nodes e.u e.v).2 && x.k == e.k then
          { x with d := e.d } else x) = slotPred s x := by
      intro x
      by_cases hcond : (x.a == (canonPair acc.nodes e.u e.v).1 &&
          x.b == (canonPair acc.nodes e.u e.v).2 && x.k == e.k) = true
      · rw [if_pos hcond]
        rfl
      · rw [if_neg hcond]
    rw [filter_map_comm _ _ _ h2, hfw, List.map_cons, List.map_nil, if_pos hwc]
    rw [hwc'.1.1, hwc'.1.2, hwc'.2, hs1, hs2, hs3]
  · rw [if_neg h]
    simp only
    rw [List.filter_append]
    rw [Bool.not_eq_true] at h
    have hfl : acc.edges.filter (slotPred s) = [] := by
      rw [List.filter_eq_nil_iff]
      intro x hx hpx
      have hxs := (slotPred_iff s x).mp hpx
      unfold edgeSlot at hxs
      rw [Prod.mk.injEq, Prod.mk.injEq] at hxs
      have := List.any_eq_false.mp h x hx
      apply this
      simp [hxs.1, hxs.2.1, hxs.2.2, hs1, hs2, hs3]
    have hnew : slotPred s (⟨(canonPair acc.nodes e.u e.v).1,
        (canonPair acc.nodes e.u e.v).2, e.k, e.d⟩ : MGEdge) = true := by
      refine (slotPred_iff s _).mpr ?_
      unfold edgeSlot
      rw [hs1, hs2, hs3]
    rw [hfl, List.nil_append, List.filter_singleton, hnew, cond_true, hs1, hs2, hs3]

theorem mgFold_slot_frame (s : Nat × Nat × Nat) (es : List Edge) :
    ∀ acc : MultiGraph, (∀ f ∈ es, slotOf acc.nodes f ≠ s) →
      ((es.foldl (fun H e => H.addEdge e.u e.v e.k e.d) acc).edges.filter (slotPred s)) =
        acc.edges.filter (slotPred s) := by
  induction es with
  | nil =>
    intro acc _
    rfl
  | cons e es ih =>
    intro acc hf
    rw [List.foldl_cons]
    have hnodes := addEdge_nodes acc e.u e.v e.k e.d
    rw [ih (acc.addEdge e.u e.v e.k e.d)
        (by rw [hnodes]; exact fun f hfe => hf f (List.mem_cons_of_mem e hfe)),
      addEdge_slot_filter_other acc e s (hf e (List.mem_cons_self e es))]

/-- C10: in `get_undirected`'s insertion step, a reciprocal pair of directed
edges `(u, v, k)` and `(v, u, k)` collides on the same undirected slot the
moment the edges are inserted into the undirected multigraph: the slot holds
exactly one edge, whose complete attribute bundle — osmid, geometry, weight
and the `from`/`to` direction markers — is that of whichever directed edge is
inserted later in iteration order.  The statement places no condition at all
on the two edges' attribute data, so the collapse is independent of the
Duplicate Edge Test and happens even when the osmid values differ; it happens
before deduplication because it is a fact about the insertion fold itself. -/
theorem C10_reciprocal_key_collision (G : MultiDiGraph) (e1 e2 : Edge)
    (pre mid suf : List Edge)
    (hnd : (G.nodes.map Prod.fst).Nodup)
    (hu1 : e1.u ∈ G.nodes.map Prod.fst) (hv1 : e1.v ∈ G.nodes.map Prod.fst)
    (hes : G.edges = pre ++ e1 :: (mid ++ e2 :: suf))
    (hu : e2.u = e1.v) (hv : e2.v = e1.u) (hk : e2.k = e1.k)
    (hsuf : ∀ f ∈ suf, slotOf G.nodes f ≠ slotOf G.nodes e1) :
    (buildMG G).edges.filter (slotPred (slotOf G.nodes e1)) =
      [⟨(canonPair G.nodes e1.u e1.v).1, (canonPair G.nodes e1.u e1.v).2,
        e1.k, e2.d⟩] := by
  have hsplit : G.edges = (pre ++ e1 :: mid) ++ e2 :: suf := by
    rw [hes]
    simp [List.append_assoc]
  set s := slotOf G.nodes e1 with hsdef
  have hslot2 : slotOf G.nodes e2 = s := by
    rw [hsdef]
    unfold slotOf
    rw [hu, hv, hk, canonPair_swap hnd hu1 hv1]
  unfold buildMG
  rw [hsplit, List.foldl_append, List.foldl_cons]
  set A1 := (pre ++ e1 :: mid).foldl (fun H e => H.addEdge e.u e.v e.k e.d)
    ({ nodes := G.nodes, edges := [] } : MultiGraph) with hA1
  have hA1nodes : A1.nodes = G.nodes := by
    rw [hA1]
    exact mgFold_nodes _ _
  have hA1nd : (A1.edges.map edgeSlot).Nodup := by
    rw [hA1]
    exact mgFold_slots_nodup _ _ (by simp)
  have hhit : (A1.addEdge e2.u e2.v e2.k e2.d).edges.filter (slotPred s) =
      [⟨s.1, s.2.1, s.2.2, e2.d⟩] := by
    refine addEdge_slot_filter_hit A1 e2 s ?_ (filter_slot_len_le_one hA1nd s)
    rw [hA1nodes, hslot2]
  have hframe : ∀ f ∈ suf, slotOf (A1.addEdge e2.u e2.v e2.k e2.d).nodes f ≠ s := by
    intro f hf
    rw [addEdge_nodes, hA1nodes]
    exact hsuf f hf
  show (suf.foldl (fun H e => H.addEdge e.u e.v e.k e.d)
      (A1.addEdge e2.u e2.v e2.k e2.d)).edges.filter (slotPred s) =
    [⟨(canonPair G.nodes e1.u e1.v).1, (canonPair G.nodes e1.u e1.v).2, e1.k, e2.d⟩]
  rw [mgFold_slot_frame s suf _ hframe, hhit, hsdef]
  rfl

/-- The attribute bundle of the first-inserted direction of the reciprocal
pair: osmid 7. -/
def c10DataA : EdgeData :=
  { osmid := .scalar 7, geometry := some [(0, 0), (1, 0)],
    srcMark := some 1, dstMark := some 2 }

/-- The attribute bundle of the later-inserted direction: a different osmid
(8) and the opposite direction markers. -/
def c10DataB : EdgeData :=
  { osmid := .scalar 8, geometry := some [(0, 0), (1, 0)],
    srcMark := some 2, dstMark := some 1 }

/-- A reciprocal pair of directed edges (1,2,0) and (2,1,0) with identical
geometries but different osmids. -/
def c10Graph : MultiDiGraph :=
  { nodes := [(1, 0, 0), (2, 1, 0)],
    edges := [⟨1, 2, 0, c10DataA⟩, ⟨2, 1, 0, c10DataB⟩] }

theorem C10_reciprocal_key_collision_witness :
    ((c10Graph.nodes.map Prod.fst).Nodup ∧
      c10Graph.edges =
        [] ++ (⟨1, 2, 0, c10DataA⟩ : Edge) :: ([] ++ (⟨2, 1, 0, c10DataB⟩ : Edge) :: [])) ∧
    (buildMG c10Graph).edges.filter
        (slotPred (slotOf c10Graph.nodes ⟨1, 2, 0, c10DataA⟩)) =
      [⟨1, 2, 0, c10DataB⟩] :=
  ⟨⟨by decide, rfl⟩,
    C10_reciprocal_key_collision c10Graph ⟨1, 2, 0, c10DataA⟩ ⟨2, 1, 0, c10DataB⟩
      [] [] [] (by decide) (by decide) (by decide) rfl rfl rfl rfl
      (fun f hf => absurd hf (List.not_mem_nil f))⟩

end Osmnx
